import Mathlib

/-!
# Verification of the family-ontology dependency/test engine

Shallow embedding of the core of the repository:

* `scripts/dependency_analyzer.py` — `topological_sort` / `_visit`
  (DFS topological sort with cycle detection over a dependency map),
  and `_calculate_dependency_levels` (fixed-point level stratification
  over short display names).
* `tests/runners/base_runner.py` — `normalize_results`, the sorted
  result comparison inside `run_test`, and the counter bookkeeping of
  `run_tests`.
* `tests/runners/test_executor.py` — `run_level` / `run_all_levels`
  (staged execution over levels 0..3 with materialization scripts).

Modelling conventions:

* Python dicts become association lists (`List (key × value)`), looked
  up with `List.lookup`; Python sets of strings become `List String`
  with `dedup` where the code relies on uniqueness.
* Python set iteration order is not specified, so every place the code
  iterates over a set (`for node in all_nodes`, `for node in nodes`)
  is parameterised by an enumeration `order` of that set; theorems
  quantify over all such enumerations.
* The recursive `_visit` is given explicit fuel; fuel exhaustion is a
  distinct result (`noFuel`) proved unreachable for the fuel used.
* Exceptions become explicit result constructors carrying the object
  state at raise time (Python leaves the mutated object behind).
* `print` calls and output files are ignored; they do not affect any
  claim.  `sorted` (Timsort) is modelled with `List.insertionSort`
  (also a correct, deterministic sort: outputs agree whenever sort
  keys are distinct, and all claims are insensitive to tie order).
-/

namespace FamOnt

/-! ## Character/string ordering helpers (model of Python `<`/`<=` on `str`) -/

/-- Total lexicographic order on char lists, by code point (model of
Python string comparison). -/
def charListLeB : List Char → List Char → Bool
  | [], _ => true
  | _ :: _, [] => false
  | a :: as, b :: bs => if a = b then charListLeB as bs else decide (a.val < b.val)

/-- Python `a <= b` on strings. -/
def strLeB (a b : String) : Bool := charListLeB a.data b.data

/-! ## `topological_sort` / `_visit` (dependency_analyzer.py lines 111-142)

The analyzer's dependency map `self.dependencies : dict[str, set[str]]`
is modelled as an association list from node to its dependency list. -/

abbrev Deps := List (String × List String)

/-- `self.dependencies.get(node, set())`. -/
def depsOf (d : Deps) (n : String) : List String := (List.lookup n d).getD []

/-- An input edge `(a, b)`: the map binds `a` to a dependency set
containing `b` ("a depends on b"). For an association list that models
a dict (no duplicate keys) this is the same as `b ∈ depsOf d a`. -/
def InEdge (d : Deps) (a b : String) : Prop := ∃ ds, (a, ds) ∈ d ∧ b ∈ ds

/-- `sorted(self.dependencies.get(node, set()))` — the dependency set of
`node`, in increasing lexicographic order (line 137). -/
def sortedDeps (d : Deps) (n : String) : List String :=
  ((depsOf d n).dedup).insertionSort (fun a b => strLeB a b = true)

/-- `all_nodes = set(self.dependencies.keys()); all_nodes.update(*values)`
(lines 114-115), as a duplicate-free list in first-insertion order.
Any enumeration of this set is admitted via `IsNodeEnum`. -/
def allNodesList (d : Deps) : List String :=
  (d.map Prod.fst ++ d.flatMap Prod.snd).dedup

/-- `order` enumerates the node set `all_nodes` exactly once. -/
def IsNodeEnum (d : Deps) (order : List String) : Prop :=
  order.Nodup ∧ (∀ x ∈ order, x ∈ allNodesList d) ∧ (∀ x ∈ allNodesList d, x ∈ order)

instance (d : Deps) (order : List String) : Decidable (IsNodeEnum d order) := by
  unfold IsNodeEnum
  exact inferInstance

/-- The sorter's mutable traversal state: `self.visited`,
`self.temp_marked` (sets, modelled as duplicate-free lists) and
`self.sorted_relations` (output list, in append order). -/
structure SortState where
  visited : List String
  temp_marked : List String
  sorted_relations : List String
deriving DecidableEq

/-- Result of a traversal step: normal return, the `ValueError` of
line 131 (cycle detected), or fuel exhaustion (a modelling artifact,
proved unreachable below).  The raised case keeps the object state at
raise time, as the Python exception does. -/
inductive VisitRes where
  | ok (st : SortState)
  | cycleErr (st : SortState)
  | noFuel (st : SortState)
deriving DecidableEq

/-- Run `f` on each element in turn, stopping at the first non-`ok`
result (the `for dep in sorted(...)` loop of line 137, where an
exception aborts the loop). -/
def runSeq (f : String → SortState → VisitRes) : List String → SortState → VisitRes
  | [], st => .ok st
  | n :: ns, st =>
    match f n st with
    | .ok st' => runSeq f ns st'
    | e => e

/-- `_visit` (lines 128-142), with fuel.  On the not-visited path it
marks the node in-progress, visits its dependencies in lexicographic
order, then marks it visited, unmarks it, and appends it to the output. -/
def visit (fuel : Nat) (d : Deps) (node : String) (st : SortState) : VisitRes :=
  match fuel with
  | 0 => .noFuel st
  | fuel + 1 =>
    if node ∈ st.temp_marked then .cycleErr st
    else if node ∈ st.visited then .ok st
    else
      match runSeq (visit fuel d) (sortedDeps d node)
          { st with temp_marked := node :: st.temp_marked } with
      | .ok st2 =>
        .ok { st2 with
              visited := node :: st2.visited,
              temp_marked := st2.temp_marked.erase node,
              sorted_relations := st2.sorted_relations ++ [node] }
      | e => e

/-- The `for node in all_nodes: if node not in self.visited: self._visit(node)`
loop of lines 122-124. -/
def sortLoop (f : String → SortState → VisitRes) : List String → SortState → VisitRes
  | [], st => .ok st
  | n :: ns, st =>
    if n ∈ st.visited then sortLoop f ns st
    else
      match f n st with
      | .ok st' => sortLoop f ns st'
      | e => e

/-- Fuel that always suffices: one unit per distinct node that can ever
be pushed onto `temp_marked`, plus one. -/
def topoFuel (temp0 : List String) (d : Deps) (order : List String) : Nat :=
  ((temp0 ++ order ++ d.flatMap Prod.snd).dedup).length + 1

/-- `topological_sort` (lines 111-126), started on an object whose
`temp_marked` currently holds `temp0`.  The method resets `visited` and
`sorted_relations` but NOT `temp_marked` (the "Reset state" block of
lines 117-119), which is why `temp0` is a parameter: a fresh analyzer
has `temp0 = []`, an analyzer whose previous sort raised has the
leftover marks. -/
def topoSortFrom (temp0 : List String) (d : Deps) (order : List String) : VisitRes :=
  sortLoop (visit (topoFuel temp0 d order) d) order
    { visited := [], temp_marked := temp0, sorted_relations := [] }

/-- Dependency edge relation used for cycles: `DepEdge d a b` means the
sorter sees "a depends on b" when visiting `a`. -/
def DepEdge (d : Deps) (a b : String) : Prop := b ∈ depsOf d a

instance (d : Deps) (a b : String) : Decidable (DepEdge d a b) := by
  unfold DepEdge
  exact inferInstance

/-- The dependency relation has no cycle (no node depends transitively
on itself). -/
def Acyclic (d : Deps) : Prop := ¬ ∃ a, Relation.TransGen (DepEdge d) a a

/-- The dependency relation contains a cycle. -/
def HasCycle (d : Deps) : Prop := ∃ a, Relation.TransGen (DepEdge d) a a

/-- Discriminator: the result is the fuel-exhaustion artifact. -/
def isNoFuel : VisitRes → Bool
  | .noFuel _ => true
  | _ => false

/-- Discriminator: the result is the cycle `ValueError`. -/
def isCycleErr : VisitRes → Bool
  | .cycleErr _ => true
  | _ => false

/-- Invariant tying the sorter's `visited` set and `sorted_relations`
output together.  It holds for the freshly reset state of
`topological_sort` and is preserved by every successful `_visit`. -/
structure SortInv (d : Deps) (st : SortState) : Prop where
  mem_iff : ∀ x, x ∈ st.visited ↔ x ∈ st.sorted_relations
  nodup : st.sorted_relations.Nodup
  closed : ∀ a ∈ st.sorted_relations, ∀ b ∈ depsOf d a, b ∈ st.visited
  ordered : st.sorted_relations.Pairwise (fun x y => y ∉ depsOf d x)
  irrefl : ∀ a ∈ st.sorted_relations, a ∉ depsOf d a
  disj : ∀ x ∈ st.temp_marked, x ∉ st.visited

/-- Postcondition of a successful `_visit node`: `temp_marked` is
restored, the node is now visited, `visited` only grew, and every newly
visited node is the node itself or some dependency occurring in the map. -/
def VisitPost (d : Deps) (node : String) (st st' : SortState) : Prop :=
  st'.temp_marked = st.temp_marked ∧
  node ∈ st'.visited ∧
  (∀ x ∈ st.visited, x ∈ st'.visited) ∧
  (∀ x ∈ st'.visited, x ∈ st.visited ∨ x = node ∨ ∃ a, x ∈ depsOf d a)

/-! ## `_calculate_dependency_levels` (dependency_analyzer.py lines 148-217)

The level computation first maps every URI through `_get_short_name`
(last `#` fragment, then last `/` segment), then runs a fixed-point
pass assigning level 0 to nodes with no incoming `rev_graph` edges and
`1 + max(dep levels)` once all of a node's dependencies are levelled,
until a pass changes nothing; finally every still-unlevelled node is
defaulted to level 0 (lines 209-212).  The forward `graph` built at
lines 173-177 is never read by the level computation and is omitted. -/

/-- Suffix of a character list after the last occurrence of `sep`
(the whole list when `sep` does not occur): Python `s.split(sep)[-1]`. -/
def lastSeg (sep : Char) : List Char → List Char
  | [] => []
  | c :: cs =>
    if c = sep then lastSeg sep cs
    else if cs.contains sep then lastSeg sep cs
    else c :: cs

/-- `_get_short_name` (lines 353-356): `uri.split('#')[-1].split('/')[-1]`. -/
def getShortName (s : String) : String :=
  String.mk (lastSeg '/' (lastSeg '#' s.data))

/-- The `relationships` list (lines 163-170): one `(dep, prop)` pair per
dependency occurrence, in iteration order, with both ends short-named.
Duplicates are kept, as in the source. -/
def relPairs (d : Deps) : List (String × String) :=
  d.flatMap (fun p => p.2.map (fun dep => (getShortName dep, getShortName p.1)))

/-- The short-named node set (lines 163-169), as a duplicate-free list. -/
def shortNodes (d : Deps) : List String :=
  (d.flatMap (fun p => getShortName p.1 :: p.2.map getShortName)).dedup

/-- `order` enumerates the short-named node set exactly once (the
`for node in nodes` iterations run over a Python set). -/
def IsShortEnum (d : Deps) (order : List String) : Prop :=
  order.Nodup ∧ (∀ x ∈ order, x ∈ shortNodes d) ∧ (∀ x ∈ shortNodes d, x ∈ order)

instance (d : Deps) (order : List String) : Decidable (IsShortEnum d order) := by
  unfold IsShortEnum
  exact inferInstance

/-- `rev_graph[n]` (lines 174-178): the sources of all relationship
pairs targeting `n`, i.e. the (short-named) dependencies of `n`. -/
def revDeps (d : Deps) (n : String) : List String :=
  ((relPairs d).filter (fun e => e.2 == n)).map Prod.fst

/-- First pass (lines 181-185): level 0 for every node with no
dependencies, in iteration order. -/
def levels0 (d : Deps) : List String → List (String × Nat)
  | [] => []
  | n :: rest =>
    if revDeps d n = [] then (n, 0) :: levels0 d rest else levels0 d rest

/-- `max(levels[dep] for dep in deps)` (line 205), with the absent-key
default never used because all dependencies are levelled when read. -/
def maxDepLevel (lv : List (String × Nat)) (ds : List String) : Nat :=
  (ds.map (fun s => (List.lookup s lv).getD 0)).foldl Nat.max 0

/-- One node of the fixed-point pass body (lines 191-207): skip if
already levelled; level 0 if it has no dependencies; `max + 1` if all
dependencies are levelled; otherwise leave it for a later pass.  The
second component reports whether this node changed anything. -/
def passStep1 (d : Deps) (lv : List (String × Nat)) (n : String) :
    List (String × Nat) × Bool :=
  if (List.lookup n lv).isSome then (lv, false)
  else if revDeps d n = [] then (lv ++ [(n, 0)], true)
  else if (revDeps d n).all (fun s => (List.lookup s lv).isSome) then
    (lv ++ [(n, maxDepLevel lv (revDeps d n) + 1)], true)
  else (lv, false)

/-- One full pass of the `while changed` loop body (lines 190-207):
process every node once, accumulating the `changed` flag. -/
def runPass (d : Deps) : List String → List (String × Nat) → List (String × Nat) × Bool
  | [], lv => (lv, false)
  | n :: rest, lv =>
    let p := passStep1 d lv n
    let q := runPass d rest p.1
    (q.1, p.2 || q.2)

/-- The `while changed` loop (lines 188-207), with fuel: run passes
until one changes nothing.  `none` is the fuel-exhaustion artifact,
proved unreachable for the fuel used by `calcLevels`. -/
def levelLoop (d : Deps) (order : List String) :
    Nat → List (String × Nat) → Option (List (String × Nat))
  | 0, _ => none
  | fuel + 1, lv =>
    let p := runPass d order lv
    if p.2 then levelLoop d order fuel p.1 else some p.1

/-- The safety-net defaults (lines 209-212): level 0 for every node the
loop left unlevelled. -/
def fillDefaults (lv : List (String × Nat)) : List String → List (String × Nat)
  | [] => []
  | n :: rest =>
    if (List.lookup n lv).isSome then fillDefaults lv rest
    else (n, 0) :: fillDefaults lv rest

/-- `_calculate_dependency_levels`'s `levels` result (lines 158-212):
initial level-0 pass, fixed-point loop, then defaults.  The pass uses
`order.length + 1` passes worth of fuel, which is proved sufficient. -/
def calcLevels (d : Deps) (order : List String) : Option (List (String × Nat)) :=
  match levelLoop d order (order.length + 1) (levels0 d order) with
  | none => none
  | some lv => some (lv ++ fillDefaults lv order)

/-- `max(levels.values()) if levels else 0` (line 215). -/
def maxLevelOf (lv : List (String × Nat)) : Nat :=
  (lv.map Prod.snd).foldl Nat.max 0

/-- Edge of the short-named relationship graph: `SEdge d s t` iff the
pair `(s, t)` occurs in `relationships` (node `t` depends on node `s`). -/
def SEdge (d : Deps) (s t : String) : Prop := (s, t) ∈ relPairs d

instance (d : Deps) (s t : String) : Decidable (SEdge d s t) := by
  unfold SEdge
  exact inferInstance

/-- No cycle in the short-named relationship graph. -/
def ShortAcyclic (d : Deps) : Prop := ¬ ∃ n, Relation.TransGen (SEdge d) n n

/-- No cycle in the input dependency relation (edges read off the
entries of the map itself). -/
def InAcyclic (d : Deps) : Prop := ¬ ∃ a, Relation.TransGen (InEdge d) a a

/-- The input relation contains a cycle. -/
def InHasCycle (d : Deps) : Prop := ∃ a, Relation.TransGen (InEdge d) a a

/-- Node `n` has no dependencies in the input map: every entry of the
map keyed by `n` carries an empty dependency set. -/
def HasNoDeps (d : Deps) (n : String) : Prop := ∀ p ∈ d, p.1 = n → p.2 = []

instance (d : Deps) (n : String) : Decidable (HasNoDeps d n) := by
  unfold HasNoDeps
  exact inferInstance

/-- Short names are injective on the nodes of the input relation (no
two distinct URIs collapse onto the same display name). -/
def ShortInj (d : Deps) : Prop :=
  ∀ a ∈ allNodesList d, ∀ b ∈ allNodesList d, getShortName a = getShortName b → a = b

instance (d : Deps) : Decidable (ShortInj d) := by
  unfold ShortInj
  exact inferInstance

/-- `lv'` preserves every binding of `lv` (levels are only ever added,
never overwritten, during the fixed-point computation). -/
def LvExtends (lv lv' : List (String × Nat)) : Prop :=
  ∀ n k, List.lookup n lv = some k → List.lookup n lv' = some k

/-- Invariant of the level map built by the fixed-point loop: a node is
levelled 0 exactly by the no-dependency branches, and a node levelled
`k > 0` has all its dependencies levelled strictly below `k`. -/
def StratInv (d : Deps) (lv : List (String × Nat)) : Prop :=
  ∀ n k, List.lookup n lv = some k →
    (k = 0 ∧ revDeps d n = []) ∨
    (revDeps d n ≠ [] ∧ ∀ s ∈ revDeps d n, ∃ j, List.lookup s lv = some j ∧ j < k)

/-- Number of nodes of `order` not yet levelled (the termination
measure of the `while changed` loop). -/
def unleveled (order : List String) (lv : List (String × Nat)) : Nat :=
  (order.filter (fun n => (List.lookup n lv).isNone)).length

/-! ## Result rows and the comparator (tests/runners/base_runner.py)

Rows of a query result are Python dicts from variable name to a bound
value; they are modelled as association lists in insertion order.
Python values are modelled by `PyVal`; `str()` and `repr()` on them are
modelled explicitly because the comparator's sort key is
`str(sorted(x.items()))`. -/

/-- Value of a variable binding as the backends and JSON produce them:
a plain Python string (also the output of the runner's stringification),
a Python boolean (ASK results, JSON `true`/`false`), or an rdflib
`URIRef`/`Literal` whose `str()` is the URI text or the lexical form. -/
inductive PyVal where
  | str (s : String)
  | bool (b : Bool)
  | uri (s : String)
  | lit (s : String)
deriving DecidableEq

/-- Python `str(value)` (line 53). -/
def pyToStr : PyVal → String
  | .str s => s
  | .bool true => "True"
  | .bool false => "False"
  | .uri s => s
  | .lit s => s

/-- Python `repr` escaping inside a string quoted with `q`: a backslash
or the quote character gets a preceding backslash.  (Control-character
escapes such as `\n` are abstracted away; they only change the reprs of
strings containing control characters and no claim depends on them.) -/
def escapeChars (q : Char) : List Char → List Char
  | [] => []
  | c :: cs =>
    if c = '\\' ∨ c = q then '\\' :: c :: escapeChars q cs
    else c :: escapeChars q cs

/-- Python `repr` of a string: single-quoted, except double-quoted when
the string contains a single quote and no double quote. -/
def pyStrRepr (s : List Char) : List Char :=
  if '\'' ∈ s ∧ '"' ∉ s then '"' :: (escapeChars '"' s ++ ['"'])
  else '\'' :: (escapeChars '\'' s ++ ['\''])

/-- The characters of `rdflib.term.URIRef`. -/
def uriTag : List Char :=
  ['r', 'd', 'f', 'l', 'i', 'b', '.', 't', 'e', 'r', 'm', '.',
   'U', 'R', 'I', 'R', 'e', 'f']

/-- The characters of `rdflib.term.Literal`. -/
def litTag : List Char :=
  ['r', 'd', 'f', 'l', 'i', 'b', '.', 't', 'e', 'r', 'm', '.',
   'L', 'i', 't', 'e', 'r', 'a', 'l']

/-- Python `repr` of a bound value.  rdflib term reprs are
`rdflib.term.URIRef('...')` and `rdflib.term.Literal('...')` (plain
literals; datatype and language arguments are abstracted away). -/
def pyValRepr : PyVal → List Char
  | .str s => pyStrRepr s.data
  | .bool true => ['T', 'r', 'u', 'e']
  | .bool false => ['F', 'a', 'l', 's', 'e']
  | .uri s => uriTag ++ '(' :: (pyStrRepr s.data ++ [')'])
  | .lit s => litTag ++ '(' :: (pyStrRepr s.data ++ [')'])

/-- One result row: a dict from variable name to value, in insertion
order (keys are distinct in every dict the program builds). -/
abbrev Row := List (String × PyVal)

/-- Python tuple comparison on `(key, value)` items sorts by key first;
within one dict keys are distinct, so values are never compared. -/
def pairKeyLe (p q : String × PyVal) : Bool := charListLeB p.1.data q.1.data

/-- `sorted(x.items())` (line 95). -/
def sortPairs (r : Row) : List (String × PyVal) :=
  r.insertionSort (fun p q => pairKeyLe p q = true)

/-- Python `str` of one `(key, value)` tuple. -/
def pairRepr (p : String × PyVal) : List Char :=
  '(' :: (pyStrRepr p.1.data ++ ',' :: ' ' :: (pyValRepr p.2 ++ [')']))

/-- Python `str` of a list of tuples, between the brackets. -/
def itemsReprAux : List (String × PyVal) → List Char
  | [] => []
  | [p] => pairRepr p
  | p :: q :: rest => pairRepr p ++ ',' :: ' ' :: itemsReprAux (q :: rest)

/-- Python `str` of a list of tuples. -/
def itemsRepr (l : List (String × PyVal)) : List Char :=
  '[' :: (itemsReprAux l ++ [']'])

/-- The canonical sort key of a row: `str(sorted(x.items()))` (line 95). -/
def rowKey (r : Row) : List Char := itemsRepr (sortPairs r)

/-- `sorted(rows, key=lambda x: str(sorted(x.items())))` (lines 95-96). -/
def sortRows (l : List Row) : List Row :=
  l.insertionSort (fun a b => charListLeB (rowKey a) (rowKey b) = true)

/-- Python `==` on two dicts: equal key-value sets, i.e. equal sorted
item lists. -/
def rowEqb (a b : Row) : Bool := sortPairs a == sortPairs b

/-- Python `==` on two lists of dicts: element-wise dict equality. -/
def rowsEqb : List Row → List Row → Bool
  | [], [] => true
  | a :: as, b :: bs => rowEqb a b && rowsEqb as bs
  | _, _ => false

/-- The result comparison of `run_test` (lines 95-99): sort both sides
by the canonical key, then exact equality of the sorted sequences. -/
def compareResults (actual expected : List Row) : Bool :=
  rowsEqb (sortRows actual) (sortRows expected)

/-! ## `normalize_results` and `_ensure_prefix` -/

/-- Bool-valued list-prefix test. -/
def isPrefixB : List Char → List Char → Bool
  | [], _ => true
  | _ :: _, [] => false
  | a :: as, b :: bs => a == b && isPrefixB as bs

/-- Python `pat in s` substring containment. -/
def isInfixB (pat : List Char) : List Char → Bool
  | [] => decide (pat = [])
  | c :: rest => isPrefixB pat (c :: rest) || isInfixB pat rest

/-- The base namespace scanned for at line 57. -/
def familyNS : List Char := "http://example.org/family#".data

/-- Value normalization of lines 52-60: stringify, and compact a value
containing the base namespace to `':' + value.split('#')[-1]`. -/
def normalizeValue (v : PyVal) : String :=
  if isInfixB familyNS (pyToStr v).data then
    String.mk (':' :: lastSeg '#' (pyToStr v).data)
  else pyToStr v

/-- Stringify-and-compact an entire row (lines 49-61). -/
def normRow (row : Row) : Row :=
  row.map (fun p => (p.1, PyVal.str (normalizeValue p.2)))

/-- `'result' in results[0]` (line 44): dict key membership. -/
def hasResultKey (r : Row) : Bool := r.any (fun p => p.1 == "result")

/-- `normalize_results` (lines 38-63): empty stays empty; a single row
containing a `result` key passes through unchanged; every other result
set has all values stringified and namespace-compacted. -/
def normalize_results : List Row → List Row
  | [] => []
  | [r] => if hasResultKey r then [r] else [normRow r]
  | r :: r2 :: rest => (r :: r2 :: rest).map normRow

/-- Python whitespace for `str.strip()`. -/
def isSpaceB (c : Char) : Bool := c == ' ' || c == '\n' || c == '\t' || c == '\r'

/-- `query.strip()` (line 89). -/
def stripStr (s : String) : String :=
  String.mk (((s.data.dropWhile isSpaceB).reverse.dropWhile isSpaceB).reverse)

/-- The PREFIX declaration of line 67. -/
def nsDecl : String := "PREFIX : <http://example.org/family#>"

/-- `_ensure_prefix` (lines 65-70): prepend the declaration unless the
query already contains it or any `PREFIX :`. -/
def ensureNs (q : String) : String :=
  if isInfixB nsDecl.data q.data ∨ isInfixB ("PREFIX :".data) q.data then q
  else nsDecl ++ "\n" ++ q

/-! ## `run_test` / `run_tests` (base_runner.py lines 72-216) -/

/-- Status stored in the details record (`PASS`, `FAIL`, `ERROR`).
Free-text messages in the details are presentation only and omitted. -/
inductive TStatus where
  | pass
  | fail
  | error
deriving DecidableEq

/-- The runner's `self.results` record.  `details` is modelled as an
append list; the Python dict would overwrite a duplicate test id, which
never happens for distinct ids. -/
structure RunnerResults where
  total : Nat
  passed : Nat
  failed : Nat
  details : List (String × TStatus)
deriving DecidableEq

/-- The zeroed record installed by `BaseTestRunner.__init__`. -/
def initResults : RunnerResults := ⟨0, 0, 0, []⟩

/-- One test case of the suite. -/
structure TestCase where
  name : String
  description : String
  query : String
  expected : List Row
deriving DecidableEq

/-- The external store (§6): opaque state `σ` threaded through query
and update execution; an `Except.error` models a raised exception. -/
structure Backend (σ : Type) where
  execQuery : σ → String → Except String (List Row) × σ
  execUpdate : σ → String → Except String Nat × σ

/-- `run_test` (lines 72-145): execute the prefixed, stripped query;
a raised exception is recorded as ERROR and counted in `failed`;
otherwise normalized-actual is compared against expected after sorting
both, incrementing `passed` or `failed`. -/
def run_test {σ : Type} (B : Backend σ) (s : σ) (tid : String) (tc : TestCase)
    (st : RunnerResults) : Bool × σ × RunnerResults :=
  match B.execQuery s (ensureNs (stripStr tc.query)) with
  | (.error _, s') =>
    (false, s', { st with failed := st.failed + 1,
                          details := st.details ++ [(tid, .error)] })
  | (.ok results, s') =>
    if compareResults (normalize_results results) tc.expected then
      (true, s', { st with passed := st.passed + 1,
                           details := st.details ++ [(tid, .pass)] })
    else
      (false, s', { st with failed := st.failed + 1,
                            details := st.details ++ [(tid, .fail)] })

/-- The `for test_id, test_case in tests_to_run` loop of lines 210-211. -/
def runTestList {σ : Type} (B : Backend σ) :
    List (String × TestCase) → σ → RunnerResults → σ × RunnerResults
  | [], s, st => (s, st)
  | (tid, tc) :: rest, s, st =>
    runTestList B rest (run_test B s tid tc st).2.1 (run_test B s tid tc st).2.2

/-- Split on a separator character: Python `s.split(sep)`. -/
def splitOnChar (sep : Char) : List Char → List (List Char)
  | [] => [[]]
  | c :: cs =>
    match splitOnChar sep cs with
    | [] => [[]]
    | h :: t => if c = sep then [] :: h :: t else (c :: h) :: t

/-- One decimal digit. -/
def charDigit (c : Char) : Option Nat :=
  if '0' ≤ c ∧ c ≤ '9' then some (c.toNat - '0'.toNat) else none

/-- Decimal parse of a digit string (`int(component)`; Python raises on
a malformed component — test ids are well-formed dot-numeric strings,
so the 0 default of `idKey` is never exercised by the program). -/
def parseNat (l : List Char) : Option Nat :=
  l.foldl
    (fun acc c =>
      match acc, charDigit c with
      | some a, some dg => some (a * 10 + dg)
      | _, _ => none)
    (some 0)

/-- The sort key of line 204: `tuple(map(int, test_id.split('.')))`. -/
def idKey (tid : String) : List Nat :=
  (splitOnChar '.' tid.data).map (fun c => (parseNat c).getD 0)

/-- Lexicographic order on numeric component tuples. -/
def natListLeB : List Nat → List Nat → Bool
  | [], _ => true
  | _ :: _, [] => false
  | a :: as, b :: bs => if a = b then natListLeB as bs else decide (a < b)

/-- `[(tid, self.test_suite['tests'][tid]) for tid in test_ids]` (line 200). -/
def idTests (suite : List (String × TestCase)) (tids : List String) :
    List (String × TestCase) :=
  tids.filterMap (fun tid => (List.lookup tid suite).map (fun tc => (tid, tc)))

/-- The whole suite sorted by dot-numeric id (lines 202-205). -/
def sortedSuite (suite : List (String × TestCase)) : List (String × TestCase) :=
  suite.insertionSort (fun a b => natListLeB (idKey a.1) (idKey b.1) = true)

/-- The whole-suite branch of `run_tests` (taken when `test_ids` is
`None` or empty, both falsy in Python). -/
def runAllSorted {σ : Type} (B : Backend σ) (suite : List (String × TestCase))
    (s : σ) (st : RunnerResults) : σ × RunnerResults :=
  runTestList B (sortedSuite suite) s { st with total := (sortedSuite suite).length }

/-- `run_tests` (lines 179-216).  A non-empty explicit id list is
validated (unknown ids raise `ValueError`) and run in the given order;
`None` — or an empty list, which is falsy in Python — runs the whole
suite in dot-numeric id order.  `total` is OVERWRITTEN with the count
of tests to run while `passed`/`failed`/`details` keep accumulating
from any previous call on the same runner. -/
def run_tests {σ : Type} (B : Backend σ) (suite : List (String × TestCase))
    (ids : Option (List String)) (s : σ) (st : RunnerResults) :
    Except String (σ × RunnerResults) :=
  match ids with
  | some (tid0 :: tids) =>
    if (tid0 :: tids).all (fun tid => (List.lookup tid suite).isSome) then
      .ok (runTestList B (idTests suite (tid0 :: tids)) s
        { st with total := (idTests suite (tid0 :: tids)).length })
    else .error "Test ID(s) not found"
  | some [] => .ok (runAllSorted B suite s st)
  | none => .ok (runAllSorted B suite s st)

/-! ## `run_level` / `run_all_levels` (test_executor.py lines 46-180) -/

/-- Per-level configuration entry (`test_levels[str(level)]`). -/
structure LevelInfo where
  name : String
  tests : List String
deriving DecidableEq

/-- The executor's configuration file. -/
structure ExecConfig where
  test_levels : List (String × LevelInfo)
  materialization_requirements : List (String × List String)

/-- The executor's environment: the store plus the filesystem facts the
script application consults (existence and content of script files) and
the project-root path resolution. -/
structure ExecEnv (σ : Type) where
  backend : Backend σ
  fsExists : String → Bool
  readScript : String → String
  resolveScript : String → String

/-- A level's returned result record.  On the success path it is the
runner's (accumulating) counters; on a materialization error it is the
all-zero record tagged with the error (lines 89 and 93). -/
structure LevelResults where
  total : Nat
  passed : Nat
  failed : Nat
  details : List (String × TStatus)
  materialization_error : Option String
deriving DecidableEq

/-- `apply_materialization` (lines 100-120): a missing file raises
`FileNotFoundError`, otherwise the script content is submitted as an
update (whose exception propagates); the zero-triple warning is
print-only. -/
def apply_materialization {σ : Type} (env : ExecEnv σ) (s : σ) (script : String) :
    Except String Nat × σ :=
  if env.fsExists script then
    env.backend.execUpdate s (env.readScript script)
  else (.error ("Materialization script not found: " ++ script), s)

/-- The `for script_path in materialize` loop of lines 83-93: apply in
order, stopping at the first error. -/
def applyScripts {σ : Type} (env : ExecEnv σ) : List String → σ → Option String × σ
  | [], s => (none, s)
  | sc :: rest, s =>
    match apply_materialization env s sc with
    | (.ok _, s') => applyScripts env rest s'
    | (.error e, s') => (some e, s')

/-- The scripts a level applies (lines 69-78): the explicit override if
given, else the config's requirement list resolved from project root. -/
def scriptsFor {σ : Type} (env : ExecEnv σ) (cfg : ExecConfig) (level : Nat)
    (materialize : Option (List String)) : List String :=
  match materialize with
  | some m => m
  | none =>
    ((List.lookup (toString level) cfg.materialization_requirements).getD []).map
      env.resolveScript

/-- `run_level` (lines 46-98): an unknown level raises `ValueError`;
with no explicit override the config's resolved requirement list is
used; any script error returns the zero record tagged with the error
(and the level's tests do NOT run); otherwise the level's tests run on
the shared runner. -/
def run_level {σ : Type} (env : ExecEnv σ) (cfg : ExecConfig)
    (suite : List (String × TestCase)) (level : Nat)
    (materialize : Option (List String)) (s : σ) (st : RunnerResults) :
    Except String (LevelResults × σ × RunnerResults) :=
  match List.lookup (toString level) cfg.test_levels with
  | none => .error ("Invalid level: " ++ toString level ++ ". Must be 0-4")
  | some info =>
    match applyScripts env (scriptsFor env cfg level materialize) s with
    | (some e, s') =>
      .ok ({ total := 0, passed := 0, failed := 0, details := [],
             materialization_error := some e }, s', st)
    | (none, s') =>
      match run_tests env.backend suite (some info.tests) s' st with
      | .error e => .error e
      | .ok (s'', st') =>
        .ok ({ total := st'.total, passed := st'.passed, failed := st'.failed,
               details := st'.details, materialization_error := none }, s'', st')

/-- The key under which a level's results are stored (line 173). -/
def levelName (k : Nat) : String := "level_" ++ toString k

/-- The level loop of `run_all_levels` (lines 170-178) over an explicit
list of level numbers: run each level with its per-level script list
(defaulting to `[]`), record the result, and stop as soon as a level
reports `failed > 0`.  Each recorded entry is the state of the result
record at recording time. -/
def runLevelsFrom {σ : Type} (env : ExecEnv σ) (cfg : ExecConfig)
    (suite : List (String × TestCase)) (mpl : List (Nat × List String)) :
    List Nat → σ → RunnerResults → Except String (List (String × LevelResults))
  | [], _, _ => .ok []
  | L :: rest, s, st =>
    match run_level env cfg suite L (some ((List.lookup L mpl).getD [])) s st with
    | .error e => .error e
    | .ok (res, s', st') =>
      if res.failed > 0 then .ok [(levelName L, res)]
      else
        match runLevelsFrom env cfg suite mpl rest s' st' with
        | .error e => .error e
        | .ok tail => .ok ((levelName L, res) :: tail)

/-- `run_all_levels` (lines 159-180): levels `start .. 3` in order. -/
def run_all_levels {σ : Type} (env : ExecEnv σ) (cfg : ExecConfig)
    (suite : List (String × TestCase)) (start : Nat)
    (mpl : List (Nat × List String)) (s : σ) (st : RunnerResults) :
    Except String (List (String × LevelResults)) :=
  runLevelsFrom env cfg suite mpl (List.range' start (4 - start)) s st

/-! ## Concrete instances used by counterexamples and witnesses -/

/-- A store whose queries all return the empty result set and whose
updates all succeed adding nothing. -/
def cexBackend : Backend Unit :=
  ⟨fun s _ => (.ok [], s), fun s _ => (.ok 0, s)⟩

/-- A store whose queries all raise. -/
def cexBackendErr : Backend Unit :=
  ⟨fun s _ => (.error "boom", s), fun s _ => (.ok 0, s)⟩

/-- A test expecting the empty result set (passes on `cexBackend`). -/
def cexTcPass : TestCase := ⟨"t", "d", "q", []⟩

/-- A test expecting one row (fails on `cexBackend`). -/
def cexTcFail : TestCase := ⟨"t", "d", "q", [[("x", PyVal.str "v")]]⟩

/-- A one-test suite whose test passes on `cexBackend`. -/
def cexSuitePass : List (String × TestCase) := [("1", cexTcPass)]

/-- Four levels, one test each; level 0's test fails on `cexBackend`. -/
def cexSuiteFail0 : List (String × TestCase) :=
  [("0.1", cexTcFail), ("1.1", cexTcPass), ("2.1", cexTcPass), ("3.1", cexTcPass)]

/-- Four levels, one test each, all passing on `cexBackend`. -/
def cexSuiteAllPass : List (String × TestCase) :=
  [("0.1", cexTcPass), ("1.1", cexTcPass), ("2.1", cexTcPass), ("3.1", cexTcPass)]

/-- Levels 0-3, one configured test each, no script requirements. -/
def cexCfg : ExecConfig :=
  ⟨[("0", ⟨"L0", ["0.1"]⟩), ("1", ⟨"L1", ["1.1"]⟩),
    ("2", ⟨"L2", ["2.1"]⟩), ("3", ⟨"L3", ["3.1"]⟩)], []⟩

/-- Executor environment in which every script file exists. -/
def cexEnv : ExecEnv Unit := ⟨cexBackend, fun _ => true, fun _ => "", fun p => p⟩

/-- Executor environment in which no script file exists. -/
def cexEnvMissing : ExecEnv Unit :=
  ⟨cexBackend, fun _ => false, fun _ => "", fun p => p⟩

/-- The level-0 entry recorded for a missing materialization script. -/
def cexC1Entry0 : String × LevelResults :=
  ("level_0", ⟨0, 0, 0, [], some "Materialization script not found: m.sparql"⟩)

/-- The four entries of a staged run over `cexSuiteAllPass` in which
level 0's script file is missing: the zeroed, tagged level-0 entry and
the three later levels, still attempted, with accumulating counters. -/
def cexC1MissingRes : List (String × LevelResults) :=
  [cexC1Entry0,
   ("level_1", ⟨1, 1, 0, [("1.1", TStatus.pass)], none⟩),
   ("level_2", ⟨1, 2, 0, [("1.1", TStatus.pass), ("2.1", TStatus.pass)], none⟩),
   ("level_3", ⟨1, 3, 0,
     [("1.1", TStatus.pass), ("2.1", TStatus.pass), ("3.1", TStatus.pass)],
     none⟩)]

/-! ## Basic lemmas about the sorter embedding -/

theorem mem_sortedDeps {d : Deps} {n b : String} :
    b ∈ sortedDeps d n ↔ b ∈ depsOf d n := by
  unfold sortedDeps
  rw [(List.perm_insertionSort _ _).mem_iff, List.mem_dedup]

theorem mem_of_lookup_eq_some {a : String} {v : List String} :
    ∀ {l : Deps}, List.lookup a l = some v → (a, v) ∈ l := by
  intro l
  induction l with
  | nil => intro h; simp [List.lookup] at h
  | cons p t ih =>
    intro h
    rw [List.lookup] at h
    by_cases hk : a == p.1
    · rw [hk] at h
      cases h
      have hpa : a = p.1 := by simpa using hk
      have : (a, p.2) = p := by rw [hpa]
      rw [this]
      exact List.mem_cons_self p t
    · simp only [Bool.not_eq_true] at hk
      rw [hk] at h
      exact List.mem_cons_of_mem _ (ih h)

theorem key_mem_of_depsOf {d : Deps} {a b : String} (h : b ∈ depsOf d a) :
    a ∈ d.map Prod.fst := by
  unfold depsOf at h
  cases hl : List.lookup a d with
  | none => rw [hl] at h; simp at h
  | some ds =>
    exact List.mem_map.mpr ⟨(a, ds), mem_of_lookup_eq_some hl, rfl⟩

theorem dep_mem_flatMap {d : Deps} {a b : String} (h : b ∈ depsOf d a) :
    b ∈ d.flatMap Prod.snd := by
  unfold depsOf at h
  cases hl : List.lookup a d with
  | none => rw [hl] at h; simp at h
  | some ds =>
    rw [hl] at h
    exact List.mem_flatMap.mpr ⟨(a, ds), mem_of_lookup_eq_some hl, h⟩

theorem key_mem_allNodes {d : Deps} {a b : String} (h : b ∈ depsOf d a) :
    a ∈ allNodesList d := by
  unfold allNodesList
  exact List.mem_dedup.mpr (List.mem_append.mpr (Or.inl (key_mem_of_depsOf h)))

theorem dep_mem_allNodes {d : Deps} {a b : String} (h : b ∈ depsOf d a) :
    b ∈ allNodesList d := by
  unfold allNodesList
  exact List.mem_dedup.mpr (List.mem_append.mpr (Or.inr (dep_mem_flatMap h)))

/-! ## `temp_marked` is restored by every successful visit -/

theorem runSeq_ok_temp {f : String → SortState → VisitRes}
    (hf : ∀ n {st st'}, f n st = .ok st' → st'.temp_marked = st.temp_marked) :
    ∀ {ns : List String} {st st'}, runSeq f ns st = .ok st' →
      st'.temp_marked = st.temp_marked := by
  intro ns
  induction ns with
  | nil =>
    intro st st' h
    rw [runSeq] at h
    cases h
    rfl
  | cons n t ih =>
    intro st st' h
    rw [runSeq] at h
    cases hfe : f n st with
    | ok s => rw [hfe] at h; exact (ih h).trans (hf n hfe)
    | cycleErr s => rw [hfe] at h; simp at h
    | noFuel s => rw [hfe] at h; simp at h

theorem visit_ok_temp : ∀ (fuel : Nat) (d : Deps) (node : String) {st st' : SortState},
    visit fuel d node st = .ok st' → st'.temp_marked = st.temp_marked := by
  intro fuel
  induction fuel with
  | zero => intro d node st st' h; simp [visit] at h
  | succ n ih =>
    intro d node st st' h
    rw [visit] at h
    by_cases h1 : node ∈ st.temp_marked
    · simp only [if_pos h1] at h; simp at h
    · rw [if_neg h1] at h
      by_cases h2 : node ∈ st.visited
      · rw [if_pos h2] at h
        cases h
        rfl
      · rw [if_neg h2] at h
        cases hrs : runSeq (visit n d) (sortedDeps d node)
            { st with temp_marked := node :: st.temp_marked } with
        | ok st2 =>
          rw [hrs] at h
          cases h
          have ht : st2.temp_marked = node :: st.temp_marked :=
            runSeq_ok_temp (fun m {s s'} hm => ih d m hm) hrs
          simp only [ht]
          exact List.erase_cons_head node st.temp_marked
        | cycleErr s => rw [hrs] at h; simp at h
        | noFuel s => rw [hrs] at h; simp at h

/-! ## Invariant preservation along successful visits -/

theorem runSeq_ok_spec {d : Deps} {f : String → SortState → VisitRes}
    (hf : ∀ n {st st'}, f n st = .ok st' → SortInv d st →
      SortInv d st' ∧ VisitPost d n st st') :
    ∀ {ns : List String} {st st'}, runSeq f ns st = .ok st' → SortInv d st →
      SortInv d st' ∧
      st'.temp_marked = st.temp_marked ∧
      (∀ n ∈ ns, n ∈ st'.visited) ∧
      (∀ x ∈ st.visited, x ∈ st'.visited) ∧
      (∀ x ∈ st'.visited, x ∈ st.visited ∨ x ∈ ns ∨ ∃ a, x ∈ depsOf d a) := by
  intro ns
  induction ns with
  | nil =>
    intro st st' h hinv
    rw [runSeq] at h
    cases h
    exact ⟨hinv, rfl, by simp, fun x hx => hx, fun x hx => Or.inl hx⟩
  | cons n t ih =>
    intro st st' h hinv
    rw [runSeq] at h
    cases hfe : f n st with
    | ok s =>
      rw [hfe] at h
      obtain ⟨hinv1, ht1, hn1, hm1, hp1⟩ := hf n hfe hinv
      obtain ⟨hinv2, ht2, hall2, hm2, hp2⟩ := ih h hinv1
      refine ⟨hinv2, ht2.trans ht1, ?_, fun x hx => hm2 x (hm1 x hx), ?_⟩
      · intro m hm
        rcases List.mem_cons.mp hm with rfl | hmt
        · exact hm2 m hn1
        · exact hall2 m hmt
      · intro x hx
        rcases hp2 x hx with hxs | hxt | hxa
        · rcases hp1 x hxs with hxs' | rfl | hxa'
          · exact Or.inl hxs'
          · exact Or.inr (Or.inl (List.mem_cons_self _ _))
          · exact Or.inr (Or.inr hxa')
        · exact Or.inr (Or.inl (List.mem_cons_of_mem _ hxt))
        · exact Or.inr (Or.inr hxa)
    | cycleErr s => rw [hfe] at h; simp at h
    | noFuel s => rw [hfe] at h; simp at h

theorem visit_ok_spec : ∀ (fuel : Nat) (d : Deps) (node : String) {st st' : SortState},
    visit fuel d node st = .ok st' → SortInv d st →
    SortInv d st' ∧ VisitPost d node st st' := by
  intro fuel
  induction fuel with
  | zero => intro d node st st' h _; simp [visit] at h
  | succ n ih =>
    intro d node st st' h hinv
    rw [visit] at h
    by_cases h1 : node ∈ st.temp_marked
    · rw [if_pos h1] at h; simp at h
    · rw [if_neg h1] at h
      by_cases h2 : node ∈ st.visited
      · rw [if_pos h2] at h
        cases h
        exact ⟨hinv, rfl, h2, fun x hx => hx, fun x hx => Or.inl hx⟩
      · rw [if_neg h2] at h
        cases hrs : runSeq (visit n d) (sortedDeps d node)
            { st with temp_marked := node :: st.temp_marked } with
        | ok st2 =>
          rw [hrs] at h
          cases h
          have hinv1 : SortInv d { st with temp_marked := node :: st.temp_marked } := by
            refine ⟨hinv.mem_iff, hinv.nodup, hinv.closed, hinv.ordered, hinv.irrefl, ?_⟩
            intro x hx
            rcases List.mem_cons.mp hx with rfl | hx'
            · exact h2
            · exact hinv.disj x hx'
          obtain ⟨hinv2, ht2, hall2, hm2, hp2⟩ :=
            runSeq_ok_spec (fun m {s s'} hm hs => ih d m hm hs) hrs hinv1
          have htemp2 : st2.temp_marked = node :: st.temp_marked := ht2
          have hnodev2 : node ∉ st2.visited :=
            hinv2.disj node (by rw [htemp2]; exact List.mem_cons_self _ _)
          have hnodes2 : node ∉ st2.sorted_relations :=
            fun hc => hnodev2 ((hinv2.mem_iff node).mpr hc)
          have hdeps2 : ∀ b ∈ depsOf d node, b ∈ st2.visited := by
            intro b hb
            exact hall2 b (mem_sortedDeps.mpr hb)
          have herase : st2.temp_marked.erase node = st.temp_marked := by
            rw [htemp2]
            exact List.erase_cons_head node st.temp_marked
          constructor
          · refine ⟨?_, ?_, ?_, ?_, ?_, ?_⟩
            · intro x
              simp only [List.mem_cons, List.mem_append, List.mem_singleton,
                hinv2.mem_iff x]
              tauto
            · rw [List.nodup_append]
              refine ⟨hinv2.nodup, List.nodup_singleton _, ?_⟩
              intro a ha hb
              rw [List.mem_singleton] at hb
              subst hb
              exact hnodes2 ha
            · intro a ha b hb
              rcases List.mem_append.mp ha with ha' | ha'
              · exact List.mem_cons_of_mem _ (hinv2.closed a ha' b hb)
              · rw [List.mem_singleton] at ha'
                subst ha'
                exact List.mem_cons_of_mem _ (hdeps2 b hb)
            · rw [List.pairwise_append]
              refine ⟨hinv2.ordered, List.pairwise_singleton _ _, ?_⟩
              intro x hx y hy
              rw [List.mem_singleton] at hy
              subst hy
              intro hcontra
              exact hnodev2 (hinv2.closed x hx y hcontra)
            · intro a ha
              rcases List.mem_append.mp ha with ha' | ha'
              · exact hinv2.irrefl a ha'
              · rw [List.mem_singleton] at ha'
                subst ha'
                intro hc
                exact hnodev2 (hdeps2 a hc)
            · intro x hx
              simp only [herase] at hx
              have hxs : x ∈ st2.temp_marked := by
                rw [htemp2]; exact List.mem_cons_of_mem _ hx
              have hxne : x ≠ node := fun hc => h1 (hc ▸ hx)
              intro hcv
              rcases List.mem_cons.mp hcv with rfl | hcv'
              · exact hxne rfl
              · exact hinv2.disj x hxs hcv'
          · refine ⟨herase, List.mem_cons_self _ _, ?_, ?_⟩
            · intro x hx
              exact List.mem_cons_of_mem _ (hm2 x hx)
            · intro x hx
              rcases List.mem_cons.mp hx with rfl | hx'
              · exact Or.inr (Or.inl rfl)
              · rcases hp2 x hx' with hxs | hxd | hxa
                · exact Or.inl hxs
                · exact Or.inr (Or.inr ⟨node, mem_sortedDeps.mp hxd⟩)
                · exact Or.inr (Or.inr hxa)
        | cycleErr s => rw [hrs] at h; simp at h
        | noFuel s => rw [hrs] at h; simp at h

/-! ## The fuel is always sufficient -/

theorem runSeq_no_noFuel {f : String → SortState → VisitRes} {T : List String}
    (hpres : ∀ n {st st'}, f n st = .ok st' → st'.temp_marked = st.temp_marked) :
    ∀ {ns : List String},
      (∀ n ∈ ns, ∀ st : SortState, st.temp_marked = T → isNoFuel (f n st) = false) →
      ∀ {st : SortState}, st.temp_marked = T → isNoFuel (runSeq f ns st) = false := by
  intro ns
  induction ns with
  | nil => intro _ st _; rw [runSeq]; rfl
  | cons n t ih =>
    intro hf st hT
    rw [runSeq]
    cases hfe : f n st with
    | ok s =>
      exact ih (fun m hm => hf m (List.mem_cons_of_mem _ hm)) ((hpres n hfe).trans hT)
    | cycleErr s => rfl
    | noFuel s =>
      have hknown := hf n (List.mem_cons_self _ _) st hT
      rw [hfe] at hknown
      simp [isNoFuel] at hknown

theorem visit_no_noFuel : ∀ (fuel : Nat) (d : Deps) (U : List String),
    (∀ a b, b ∈ depsOf d a → b ∈ U) →
    ∀ (node : String) (st : SortState),
      st.temp_marked.Nodup → (∀ x ∈ st.temp_marked, x ∈ U) → node ∈ U →
      U.length + 1 ≤ fuel + st.temp_marked.length →
      isNoFuel (visit fuel d node st) = false := by
  intro fuel
  induction fuel with
  | zero =>
    intro d U hU node st hnd hsub hnode hle
    exfalso
    have hlen : st.temp_marked.length ≤ U.length :=
      (List.Nodup.subperm hnd hsub).length_le
    omega
  | succ n ih =>
    intro d U hU node st hnd hsub hnode hle
    rw [visit]
    by_cases h1 : node ∈ st.temp_marked
    · rw [if_pos h1]; rfl
    · rw [if_neg h1]
      by_cases h2 : node ∈ st.visited
      · rw [if_pos h2]; rfl
      · rw [if_neg h2]
        have hrsf : isNoFuel (runSeq (visit n d) (sortedDeps d node)
            { st with temp_marked := node :: st.temp_marked }) = false := by
          apply runSeq_no_noFuel (T := node :: st.temp_marked)
            (fun m {s s'} hm => visit_ok_temp n d m hm)
          · intro m hm s hT
            apply ih d U hU m s
            · rw [hT]
              exact List.nodup_cons.mpr ⟨h1, hnd⟩
            · rw [hT]
              intro x hx
              rcases List.mem_cons.mp hx with rfl | hx'
              · exact hnode
              · exact hsub x hx'
            · exact hU node m (mem_sortedDeps.mp hm)
            · rw [hT]
              simp only [List.length_cons]
              omega
          · rfl
        cases hrs : runSeq (visit n d) (sortedDeps d node)
            { st with temp_marked := node :: st.temp_marked } with
        | ok st2 => rfl
        | cycleErr s => rfl
        | noFuel s => rw [hrs] at hrsf; simp [isNoFuel] at hrsf

/-! ## Acyclic inputs never raise the cycle error -/

theorem transGen_of_chain_mem {R : String → String → Prop} :
    ∀ {l : List String} {x y : String},
      List.Chain (Function.swap R) x l → y ∈ l → Relation.TransGen R y x := by
  intro l
  induction l with
  | nil => intro x y _ hy; simp at hy
  | cons t ts ih =>
    intro x y hch hy
    rw [List.chain_cons] at hch
    rcases List.mem_cons.mp hy with rfl | hy'
    · exact Relation.TransGen.single hch.1
    · exact (ih hch.2 hy').tail hch.1

theorem runSeq_no_cycle {f : String → SortState → VisitRes} {T : List String}
    (hpres : ∀ n {st st'}, f n st = .ok st' → st'.temp_marked = st.temp_marked) :
    ∀ {ns : List String},
      (∀ n ∈ ns, ∀ st : SortState, st.temp_marked = T → isCycleErr (f n st) = false) →
      ∀ {st : SortState}, st.temp_marked = T → isCycleErr (runSeq f ns st) = false := by
  intro ns
  induction ns with
  | nil => intro _ st _; rw [runSeq]; rfl
  | cons n t ih =>
    intro hf st hT
    rw [runSeq]
    cases hfe : f n st with
    | ok s =>
      exact ih (fun m hm => hf m (List.mem_cons_of_mem _ hm)) ((hpres n hfe).trans hT)
    | noFuel s => rfl
    | cycleErr s =>
      have hknown := hf n (List.mem_cons_self _ _) st hT
      rw [hfe] at hknown
      simp [isCycleErr] at hknown

theorem visit_no_cycle : ∀ (fuel : Nat) (d : Deps), Acyclic d →
    ∀ (node : String) (st : SortState),
      List.Chain (fun x y => x ∈ depsOf d y) node st.temp_marked →
      isCycleErr (visit fuel d node st) = false := by
  intro fuel
  induction fuel with
  | zero => intro d _ node st _; rw [visit]; rfl
  | succ n ih =>
    intro d hac node st hch
    rw [visit]
    by_cases h1 : node ∈ st.temp_marked
    · exfalso
      exact hac ⟨node, transGen_of_chain_mem (R := DepEdge d) hch h1⟩
    · rw [if_neg h1]
      by_cases h2 : node ∈ st.visited
      · rw [if_pos h2]; rfl
      · rw [if_neg h2]
        have hrsf : isCycleErr (runSeq (visit n d) (sortedDeps d node)
            { st with temp_marked := node :: st.temp_marked }) = false := by
          apply runSeq_no_cycle (T := node :: st.temp_marked)
            (fun m {s s'} hm => visit_ok_temp n d m hm)
          · intro m hm s hT
            apply ih d hac m s
            rw [hT, List.chain_cons]
            exact ⟨mem_sortedDeps.mp hm, hch⟩
          · rfl
        cases hrs : runSeq (visit n d) (sortedDeps d node)
            { st with temp_marked := node :: st.temp_marked } with
        | ok st2 => rfl
        | noFuel s => rfl
        | cycleErr s => rw [hrs] at hrsf; simp [isCycleErr] at hrsf

/-! ## The top-level node loop -/

theorem sortLoop_ok_spec {d : Deps} {f : String → SortState → VisitRes}
    (hf : ∀ n {st st'}, f n st = .ok st' → SortInv d st →
      SortInv d st' ∧ VisitPost d n st st') :
    ∀ {order : List String} {st st'}, sortLoop f order st = .ok st' → SortInv d st →
      SortInv d st' ∧
      st'.temp_marked = st.temp_marked ∧
      (∀ n ∈ order, n ∈ st'.visited) ∧
      (∀ x ∈ st.visited, x ∈ st'.visited) ∧
      (∀ x ∈ st'.visited, x ∈ st.visited ∨ x ∈ order ∨ ∃ a, x ∈ depsOf d a) := by
  intro order
  induction order with
  | nil =>
    intro st st' h hinv
    rw [sortLoop] at h
    cases h
    exact ⟨hinv, rfl, by simp, fun x hx => hx, fun x hx => Or.inl hx⟩
  | cons n t ih =>
    intro st st' h hinv
    rw [sortLoop] at h
    by_cases hv : n ∈ st.visited
    · rw [if_pos hv] at h
      obtain ⟨hinv2, ht2, hall2, hm2, hp2⟩ := ih h hinv
      refine ⟨hinv2, ht2, ?_, hm2, ?_⟩
      · intro m hm
        rcases List.mem_cons.mp hm with rfl | hmt
        · exact hm2 m hv
        · exact hall2 m hmt
      · intro x hx
        rcases hp2 x hx with hxs | hxt | hxa
        · exact Or.inl hxs
        · exact Or.inr (Or.inl (List.mem_cons_of_mem _ hxt))
        · exact Or.inr (Or.inr hxa)
    · rw [if_neg hv] at h
      cases hfe : f n st with
      | ok s =>
        rw [hfe] at h
        obtain ⟨hinv1, ht1, hn1, hm1, hp1⟩ := hf n hfe hinv
        obtain ⟨hinv2, ht2, hall2, hm2, hp2⟩ := ih h hinv1
        refine ⟨hinv2, ht2.trans ht1, ?_, fun x hx => hm2 x (hm1 x hx), ?_⟩
        · intro m hm
          rcases List.mem_cons.mp hm with rfl | hmt
          · exact hm2 m hn1
          · exact hall2 m hmt
        · intro x hx
          rcases hp2 x hx with hxs | hxt | hxa
          · rcases hp1 x hxs with hxs' | rfl | hxa'
            · exact Or.inl hxs'
            · exact Or.inr (Or.inl (List.mem_cons_self _ _))
            · exact Or.inr (Or.inr hxa')
          · exact Or.inr (Or.inl (List.mem_cons_of_mem _ hxt))
          · exact Or.inr (Or.inr hxa)
      | cycleErr s => rw [hfe] at h; simp at h
      | noFuel s => rw [hfe] at h; simp at h

theorem sortLoop_no_noFuel {f : String → SortState → VisitRes} {T : List String}
    (hpres : ∀ n {st st'}, f n st = .ok st' → st'.temp_marked = st.temp_marked) :
    ∀ {ns : List String},
      (∀ n ∈ ns, ∀ st : SortState, st.temp_marked = T → isNoFuel (f n st) = false) →
      ∀ {st : SortState}, st.temp_marked = T → isNoFuel (sortLoop f ns st) = false := by
  intro ns
  induction ns with
  | nil => intro _ st _; rw [sortLoop]; rfl
  | cons n t ih =>
    intro hf st hT
    rw [sortLoop]
    by_cases hv : n ∈ st.visited
    · rw [if_pos hv]
      exact ih (fun m hm => hf m (List.mem_cons_of_mem _ hm)) hT
    · rw [if_neg hv]
      cases hfe : f n st with
      | ok s =>
        exact ih (fun m hm => hf m (List.mem_cons_of_mem _ hm)) ((hpres n hfe).trans hT)
      | cycleErr s => rfl
      | noFuel s =>
        have hknown := hf n (List.mem_cons_self _ _) st hT
        rw [hfe] at hknown
        simp [isNoFuel] at hknown

theorem sortLoop_no_cycle {f : String → SortState → VisitRes} {T : List String}
    (hpres : ∀ n {st st'}, f n st = .ok st' → st'.temp_marked = st.temp_marked) :
    ∀ {ns : List String},
      (∀ n ∈ ns, ∀ st : SortState, st.temp_marked = T → isCycleErr (f n st) = false) →
      ∀ {st : SortState}, st.temp_marked = T → isCycleErr (sortLoop f ns st) = false := by
  intro ns
  induction ns with
  | nil => intro _ st _; rw [sortLoop]; rfl
  | cons n t ih =>
    intro hf st hT
    rw [sortLoop]
    by_cases hv : n ∈ st.visited
    · rw [if_pos hv]
      exact ih (fun m hm => hf m (List.mem_cons_of_mem _ hm)) hT
    · rw [if_neg hv]
      cases hfe : f n st with
      | ok s =>
        exact ih (fun m hm => hf m (List.mem_cons_of_mem _ hm)) ((hpres n hfe).trans hT)
      | noFuel s => rfl
      | cycleErr s =>
        have hknown := hf n (List.mem_cons_self _ _) st hT
        rw [hfe] at hknown
        simp [isCycleErr] at hknown

/-! ## Facts about a full fresh `topological_sort` run -/

theorem topoSortFrom_nil_ok_spec {d : Deps} {order : List String} {st' : SortState}
    (h : topoSortFrom [] d order = .ok st') :
    SortInv d st' ∧ (∀ n ∈ order, n ∈ st'.visited) ∧
    (∀ x ∈ st'.visited, x ∈ order ∨ ∃ a, x ∈ depsOf d a) := by
  unfold topoSortFrom at h
  have h0 : SortInv d ⟨[], [], []⟩ := by
    constructor <;> simp
  obtain ⟨hinv, _, hall, _, hprov⟩ :=
    sortLoop_ok_spec (fun n {s s'} hn hs => visit_ok_spec _ d n hn hs) h h0
  refine ⟨hinv, hall, ?_⟩
  intro x hx
  rcases hprov x hx with hc | hc | hc
  · simp at hc
  · exact Or.inl hc
  · exact Or.inr hc

theorem topoSortFrom_nil_not_noFuel (d : Deps) (order : List String) :
    isNoFuel (topoSortFrom [] d order) = false := by
  unfold topoSortFrom
  apply sortLoop_no_noFuel (T := ([] : List String))
    (fun n {s s'} hn => visit_ok_temp _ d n hn)
  · intro n hn st hT
    apply visit_no_noFuel _ d ((([] : List String) ++ order ++ d.flatMap Prod.snd).dedup)
    · intro a b hb
      rw [List.mem_dedup]
      exact List.mem_append.mpr (Or.inr (dep_mem_flatMap hb))
    · rw [hT]; exact List.nodup_nil
    · rw [hT]; simp
    · rw [List.mem_dedup]
      exact List.mem_append.mpr (Or.inl (List.mem_append.mpr (Or.inr hn)))
    · rw [hT]
      simp [topoFuel]
  · rfl

theorem topoSortFrom_nil_not_cycle (d : Deps) (order : List String) (hac : Acyclic d) :
    isCycleErr (topoSortFrom [] d order) = false := by
  unfold topoSortFrom
  apply sortLoop_no_cycle (T := ([] : List String))
    (fun n {s s'} hn => visit_ok_temp _ d n hn)
  · intro n hn st hT
    apply visit_no_cycle _ d hac n st
    rw [hT]
    exact List.Chain.nil
  · rfl

theorem ok_of_no_err {r : VisitRes} (h1 : isCycleErr r = false) (h2 : isNoFuel r = false) :
    ∃ st, r = .ok st := by
  cases r with
  | ok st => exact ⟨st, rfl⟩
  | cycleErr st => simp [isCycleErr] at h1
  | noFuel st => simp [isNoFuel] at h2

/-! ## Output positions respect dependency edges -/

theorem indexOf_lt_of_pairwise {R : String → String → Prop} {l : List String}
    (_nd : l.Nodup) (hp : l.Pairwise R) {a b : String}
    (ha : a ∈ l) (hb : b ∈ l) (hne : a ≠ b) (hnr : ¬ R a b) :
    l.indexOf b < l.indexOf a := by
  have hia := List.indexOf_lt_length.mpr ha
  have hib := List.indexOf_lt_length.mpr hb
  rcases lt_trichotomy (l.indexOf a) (l.indexOf b) with hlt | heq | hgt
  · exfalso
    have hR := List.pairwise_iff_getElem.mp hp _ _ hia hib hlt
    rw [List.getElem_indexOf hia, List.getElem_indexOf hib] at hR
    exact hnr hR
  · exact absurd ((List.indexOf_inj ha hb).mp heq) hne
  · exact hgt

theorem transGen_first_edge {α : Type} {r : α → α → Prop} {a b : α}
    (h : Relation.TransGen r a b) : ∃ c, r a c := by
  induction h with
  | single h => exact ⟨_, h⟩
  | tail _ _ ih => exact ih

theorem transGen_indexOf_lt {d : Deps} {l : List String}
    (nd : l.Nodup) (hp : l.Pairwise (fun x y => y ∉ depsOf d x))
    (hirr : ∀ a ∈ l, a ∉ depsOf d a)
    (hclosed : ∀ a ∈ l, ∀ b ∈ depsOf d a, b ∈ l) :
    ∀ {a b : String}, Relation.TransGen (DepEdge d) a b → a ∈ l →
      b ∈ l ∧ l.indexOf b < l.indexOf a := by
  intro a b h
  induction h with
  | @single c hr =>
    intro ha
    have hb := hclosed a ha _ hr
    have hne : a ≠ c := by
      intro hc
      apply hirr a ha
      rw [← hc] at hr
      exact hr
    exact ⟨hb, indexOf_lt_of_pairwise nd hp ha hb hne (fun hn => hn hr)⟩
  | @tail m c _ hr ih =>
    intro ha
    obtain ⟨hb0, hlt0⟩ := ih ha
    have hcm := hclosed _ hb0 _ hr
    have hne : m ≠ c := by
      intro hcc
      apply hirr _ hb0
      rw [← hcc] at hr
      exact hr
    exact ⟨hcm, lt_trans (indexOf_lt_of_pairwise nd hp hb0 hcm hne (fun hn => hn hr)) hlt0⟩

/-! ## Acyclicity via a rank function (used to discharge hypotheses at
concrete inputs) -/

theorem rank_lt_of_transGen {d : Deps} {f : String → Nat}
    (hf : ∀ a b, b ∈ depsOf d a → f b < f a) :
    ∀ {a b}, Relation.TransGen (DepEdge d) a b → f b < f a := by
  intro a b h
  induction h with
  | single hr => exact hf _ _ hr
  | tail _ hr ih => exact lt_trans (hf _ _ hr) ih

theorem acyclic_of_rank (d : Deps) (f : String → Nat)
    (hf : ∀ a b, b ∈ depsOf d a → f b < f a) : Acyclic d := by
  rintro ⟨a, h⟩
  exact lt_irrefl (f a) (rank_lt_of_transGen hf h)

/-! ## Shared specification of a fresh sort on an acyclic relation -/

theorem topoSortFrom_acyclic_spec {d : Deps} {order : List String}
    (he : IsNodeEnum d order) (hac : Acyclic d) :
    ∃ st, topoSortFrom [] d order = .ok st ∧
      SortInv d st ∧ st.sorted_relations.Perm (allNodesList d) ∧
      (∀ x, x ∈ st.sorted_relations ↔ x ∈ allNodesList d) := by
  obtain ⟨st, hok⟩ := ok_of_no_err (topoSortFrom_nil_not_cycle d order hac)
    (topoSortFrom_nil_not_noFuel d order)
  obtain ⟨hinv, hall, hprov⟩ := topoSortFrom_nil_ok_spec hok
  have hmem : ∀ x, x ∈ st.sorted_relations ↔ x ∈ allNodesList d := by
    intro x
    constructor
    · intro hx
      rcases hprov x ((hinv.mem_iff x).mpr hx) with hc | ⟨a, hc⟩
      · exact he.2.1 x hc
      · exact dep_mem_allNodes hc
    · intro hx
      exact (hinv.mem_iff x).mp (hall x (he.2.2 x hx))
  refine ⟨st, hok, hinv, ?_, hmem⟩
  apply List.perm_of_nodup_nodup_toFinset_eq hinv.nodup (List.nodup_dedup _)
  apply Finset.ext
  intro a
  simp only [List.mem_toFinset]
  exact hmem a

theorem depsOf_cases {d : Deps} {a b : String} (h : b ∈ depsOf d a) :
    ∃ ds, List.lookup a d = some ds ∧ b ∈ ds := by
  unfold depsOf at h
  cases hl : List.lookup a d with
  | none => rw [hl] at h; simp at h
  | some ds => rw [hl] at h; exact ⟨ds, rfl, h⟩

/-! ## Claim theorems for the topological sorter -/

/-- C2: for every acyclic dependency relation (and every iteration
order of the node set), `topological_sort()` returns a sequence whose
length equals the number of distinct nodes appearing as a dependent or
a dependency, and for every edge where `a` depends on `b`, `b`'s index
in the output is strictly less than `a`'s index. -/
theorem claim_C2_toposort_acyclic_correct (d : Deps) (order : List String)
    (he : IsNodeEnum d order) (hac : Acyclic d) :
    ∃ st, topoSortFrom [] d order = .ok st ∧
      st.sorted_relations.length = (allNodesList d).length ∧
      ∀ a b, b ∈ depsOf d a →
        st.sorted_relations.indexOf b < st.sorted_relations.indexOf a := by
  obtain ⟨st, hok, hinv, hperm, hmem⟩ := topoSortFrom_acyclic_spec he hac
  refine ⟨st, hok, hperm.length_eq, ?_⟩
  intro a b hdep
  have has : a ∈ st.sorted_relations := (hmem a).mpr (key_mem_allNodes hdep)
  have hbs : b ∈ st.sorted_relations := (hmem b).mpr (dep_mem_allNodes hdep)
  have hne : a ≠ b := by
    intro hcontra
    apply hinv.irrefl a has
    rw [← hcontra] at hdep
    exact hdep
  exact indexOf_lt_of_pairwise hinv.nodup hinv.ordered has hbs hne (fun hn => hn hdep)

/-- Witness for C2 at the concrete relation `{X ↦ {Z}}`. -/
theorem claim_C2_witness :
    ∃ st, topoSortFrom [] [("X", ["Z"])] ["X", "Z"] = .ok st ∧
      st.sorted_relations.length = (allNodesList [("X", ["Z"])]).length ∧
      ∀ a b, b ∈ depsOf [("X", ["Z"])] a →
        st.sorted_relations.indexOf b < st.sorted_relations.indexOf a := by
  apply claim_C2_toposort_acyclic_correct _ _ (by decide)
  apply acyclic_of_rank _ (fun s => if s = "X" then 1 else 0)
  intro a b hb
  obtain ⟨ds, hl, hbds⟩ := depsOf_cases hb
  have hmem := mem_of_lookup_eq_some hl
  simp only [List.mem_singleton, Prod.mk.injEq] at hmem
  obtain ⟨rfl, rfl⟩ := hmem
  simp only [List.mem_singleton] at hbds
  subst hbds
  decide

/-- C4: for every dependency relation containing a cycle (and every
iteration order of the node set), `topological_sort()` raises the cycle
`ValueError` and does not return an output sequence. -/
theorem claim_C4_cycle_error (d : Deps) (order : List String)
    (he : IsNodeEnum d order) (hc : HasCycle d) :
    ∃ st, topoSortFrom [] d order = .cycleErr st := by
  cases hres : topoSortFrom [] d order with
  | cycleErr st => exact ⟨st, rfl⟩
  | noFuel st =>
    have hnf := topoSortFrom_nil_not_noFuel d order
    rw [hres] at hnf
    simp [isNoFuel] at hnf
  | ok st =>
    exfalso
    obtain ⟨hinv, hall, hprov⟩ := topoSortFrom_nil_ok_spec hres
    obtain ⟨a, htg⟩ := hc
    obtain ⟨c, hedge⟩ := transGen_first_edge htg
    have ha : a ∈ st.sorted_relations :=
      (hinv.mem_iff a).mp (hall a (he.2.2 a (key_mem_allNodes hedge)))
    have hclosed : ∀ x ∈ st.sorted_relations, ∀ b ∈ depsOf d x,
        b ∈ st.sorted_relations :=
      fun x hx b hb => (hinv.mem_iff b).mp (hinv.closed x hx b hb)
    obtain ⟨_, hlt⟩ :=
      transGen_indexOf_lt hinv.nodup hinv.ordered hinv.irrefl hclosed htg ha
    exact lt_irrefl _ hlt

/-- Witness for C4 at the concrete two-cycle `{X ↦ {Y}, Y ↦ {X}}`. -/
theorem claim_C4_witness :
    ∃ st, topoSortFrom [] [("X", ["Y"]), ("Y", ["X"])] ["X", "Y"] = .cycleErr st := by
  apply claim_C4_cycle_error _ _ (by decide)
  exact ⟨"X", Relation.TransGen.tail
    (Relation.TransGen.single
      (show DepEdge [("X", ["Y"]), ("Y", ["X"])] "X" "Y" by decide))
    (show DepEdge [("X", ["Y"]), ("Y", ["X"])] "Y" "X" by decide)⟩

/-- C6 (amended): the output of `topological_sort()` is a function of
the dependency map together with the iteration order of the node set;
for a fixed iteration order it is deterministic, and across different
orders (the situation of two separate processes, since Python set
iteration order for strings varies with hash randomization) the outputs
of an acyclic sort are permutations of each other — but not necessarily
the same sequence (see the counterexample). -/
theorem claim_C6_amended_deterministic_up_to_order (d : Deps) (o₁ o₂ : List String)
    (h₁ : IsNodeEnum d o₁) (h₂ : IsNodeEnum d o₂) (hac : Acyclic d) :
    ∃ s₁ s₂, topoSortFrom [] d o₁ = .ok s₁ ∧ topoSortFrom [] d o₂ = .ok s₂ ∧
      s₁.sorted_relations.Perm s₂.sorted_relations := by
  obtain ⟨s₁, hok₁, _, hp₁, _⟩ := topoSortFrom_acyclic_spec h₁ hac
  obtain ⟨s₂, hok₂, _, hp₂, _⟩ := topoSortFrom_acyclic_spec h₂ hac
  exact ⟨s₁, s₂, hok₁, hok₂, hp₁.trans hp₂.symm⟩

/-- Counterexample to C6 as stated: the same dependency map
`{A ↦ {C}, B ↦ {C}}`, iterated in two orders that are both legitimate
enumerations of the node set (Python fixes no order for `all_nodes`,
only each node's dependency set is sorted), yields two different output
sequences, so the output is not reproducible across runs. -/
theorem claim_C6_counterexample :
    IsNodeEnum [("A", ["C"]), ("B", ["C"])] ["A", "B", "C"] ∧
    IsNodeEnum [("A", ["C"]), ("B", ["C"])] ["B", "A", "C"] ∧
    topoSortFrom [] [("A", ["C"]), ("B", ["C"])] ["A", "B", "C"] ≠
      topoSortFrom [] [("A", ["C"]), ("B", ["C"])] ["B", "A", "C"] :=
  ⟨by decide, by decide, by decide⟩

/-- Witness for the amended C6 at the concrete relation
`{A ↦ {C}, B ↦ {C}}` with the two orders of the counterexample. -/
theorem claim_C6_witness :
    ∃ s₁ s₂, topoSortFrom [] [("A", ["C"]), ("B", ["C"])] ["A", "B", "C"] = .ok s₁ ∧
      topoSortFrom [] [("A", ["C"]), ("B", ["C"])] ["B", "A", "C"] = .ok s₂ ∧
      s₁.sorted_relations.Perm s₂.sorted_relations := by
  apply claim_C6_amended_deterministic_up_to_order _ _ _ (by decide) (by decide)
  apply acyclic_of_rank _ (fun s => if s = "C" then 0 else 1)
  intro a b hb
  obtain ⟨ds, hl, hbds⟩ := depsOf_cases hb
  have hmem := mem_of_lookup_eq_some hl
  simp only [List.mem_cons, List.mem_singleton, Prod.mk.injEq,
    List.not_mem_nil, or_false] at hmem
  rcases hmem with ⟨rfl, rfl⟩ | ⟨rfl, rfl⟩ <;>
    · simp only [List.mem_singleton] at hbds
      subst hbds
      decide

/-- C5 (the code contradicts it): `topological_sort` resets `visited`
and `sorted_relations` but not `temp_marked` (lines 117-119 reset only
the former two).  Concretely: a first sort of the cyclic relation
`{X ↦ {Y}, Y ↦ {X}}` raises and leaves `temp_marked = {Y, X}`; a
subsequent sort of the acyclic relation `{X ↦ {Z}}` on the same object
spuriously raises the cycle error, whereas a fresh first call on that
relation succeeds with output `[Z, X]`. -/
theorem claim_C5_temp_marked_leak :
    topoSortFrom [] [("X", ["Y"]), ("Y", ["X"])] ["X", "Y"]
      = .cycleErr ⟨[], ["Y", "X"], []⟩ ∧
    topoSortFrom ["Y", "X"] [("X", ["Z"])] ["X", "Z"]
      = .cycleErr ⟨[], ["Y", "X"], []⟩ ∧
    topoSortFrom [] [("X", ["Z"])] ["X", "Z"]
      = .ok ⟨["X", "Z"], [], ["Z", "X"]⟩ ∧
    Acyclic [("X", ["Z"])] := by
  refine ⟨by decide, by decide, by decide, ?_⟩
  apply acyclic_of_rank _ (fun s => if s = "X" then 1 else 0)
  intro a b hb
  obtain ⟨ds, hl, hbds⟩ := depsOf_cases hb
  have hmem := mem_of_lookup_eq_some hl
  simp only [List.mem_singleton, Prod.mk.injEq] at hmem
  obtain ⟨rfl, rfl⟩ := hmem
  simp only [List.mem_singleton] at hbds
  subst hbds
  decide

/-! ## Association list lookup helpers -/

theorem lookup_append_some {β : Type} {l₁ l₂ : List (String × β)} {n : String} {k : β}
    (h : List.lookup n l₁ = some k) : List.lookup n (l₁ ++ l₂) = some k := by
  induction l₁ with
  | nil => simp [List.lookup] at h
  | cons p t ih =>
    rw [List.lookup] at h
    rw [List.cons_append, List.lookup]
    cases hk : (n == p.1) with
    | true => rw [hk] at h; exact h
    | false => rw [hk] at h; exact ih h

theorem lookup_append_none {β : Type} {l₁ l₂ : List (String × β)} {n : String}
    (h : List.lookup n l₁ = none) : List.lookup n (l₁ ++ l₂) = List.lookup n l₂ := by
  induction l₁ with
  | nil => simp
  | cons p t ih =>
    rw [List.lookup] at h
    rw [List.cons_append, List.lookup]
    cases hk : (n == p.1) with
    | true => rw [hk] at h; simp at h
    | false => rw [hk] at h; exact ih h

theorem lookup_append_cases {β : Type} {l₁ l₂ : List (String × β)} {n : String} {k : β}
    (h : List.lookup n (l₁ ++ l₂) = some k) :
    List.lookup n l₁ = some k ∨ (List.lookup n l₁ = none ∧ List.lookup n l₂ = some k) := by
  cases hl : List.lookup n l₁ with
  | some v =>
    left
    have hsome : List.lookup n (l₁ ++ l₂) = some v := lookup_append_some hl
    exact hsome.symm.trans h
  | none =>
    right
    rw [lookup_append_none hl] at h
    exact ⟨rfl, h⟩

theorem lookup_singleton_some {β : Type} {n m : String} {v k : β}
    (h : List.lookup n [(m, v)] = some k) : n = m ∧ k = v := by
  rw [List.lookup] at h
  cases hk : (n == m) with
  | true =>
    rw [hk] at h
    cases h
    exact ⟨by simpa using hk, rfl⟩
  | false => rw [hk] at h; simp [List.lookup] at h

theorem lookup_singleton_self {β : Type} (n : String) (v : β) :
    List.lookup n [(n, v)] = some v := by
  rw [List.lookup]
  simp

/-! ## foldl-max bounds -/

theorem init_le_foldl_max : ∀ (l : List Nat) (a : Nat), a ≤ l.foldl Nat.max a := by
  intro l
  induction l with
  | nil => intro a; simp
  | cons x t ih =>
    intro a
    rw [List.foldl_cons]
    exact le_trans (Nat.le_max_left a x) (ih (Nat.max a x))

theorem le_foldl_max : ∀ (l : List Nat) (a : Nat), ∀ x ∈ l, x ≤ l.foldl Nat.max a := by
  intro l
  induction l with
  | nil => intro a x hx; simp at hx
  | cons y t ih =>
    intro a x hx
    rw [List.foldl_cons]
    rcases List.mem_cons.mp hx with rfl | hx'
    · exact le_trans (Nat.le_max_right a x) (init_le_foldl_max t (Nat.max a x))
    · exact ih (Nat.max a y) x hx'

/-! ## Filtered-length comparisons (the loop's termination measure) -/

theorem filter_length_le {p q : String → Bool} :
    ∀ {l : List String}, (∀ a ∈ l, q a = true → p a = true) →
      (l.filter q).length ≤ (l.filter p).length := by
  intro l
  induction l with
  | nil => intro _; simp
  | cons a t ih =>
    intro hpq
    have ht := ih (fun x hx => hpq x (List.mem_cons_of_mem _ hx))
    cases hq : q a with
    | true =>
      have hp := hpq a (List.mem_cons_self _ _) hq
      simp only [List.filter_cons, hq, hp, if_true]
      simpa using ht
    | false =>
      cases hp : p a with
      | true =>
        simp only [List.filter_cons, hq, hp]
        simp only [Bool.false_eq_true, if_false, if_true, List.length_cons]
        omega
      | false =>
        simp only [List.filter_cons, hq, hp, Bool.false_eq_true, if_false]
        exact ht

theorem filter_length_lt {p q : String → Bool} :
    ∀ {l : List String}, (∀ a ∈ l, q a = true → p a = true) →
      ∀ {x}, x ∈ l → p x = true → q x = false →
      (l.filter q).length < (l.filter p).length := by
  intro l
  induction l with
  | nil => intro _ x hx; simp at hx
  | cons a t ih =>
    intro hpq x hx hpx hqx
    have hle := filter_length_le (p := p) (q := q)
      (fun y hy => hpq y (List.mem_cons_of_mem _ hy))
    rcases List.mem_cons.mp hx with rfl | hx'
    · simp only [List.filter_cons, hqx, hpx, Bool.false_eq_true, if_false, if_true,
        List.length_cons]
      omega
    · have hlt := ih (fun y hy => hpq y (List.mem_cons_of_mem _ hy)) hx' hpx hqx
      cases hq : q a with
      | true =>
        have hp := hpq a (List.mem_cons_self _ _) hq
        simp only [List.filter_cons, hq, hp, if_true, List.length_cons]
        omega
      | false =>
        cases hp : p a with
        | true =>
          simp only [List.filter_cons, hq, hp, Bool.false_eq_true, if_false, if_true,
            List.length_cons]
          omega
        | false =>
          simp only [List.filter_cons, hq, hp, Bool.false_eq_true, if_false]
          exact hlt

/-! ## Membership facts for the short-named graph -/

theorem relPairs_mem {d : Deps} {s t : String} :
    (s, t) ∈ relPairs d ↔
      ∃ p ∈ d, ∃ dep ∈ p.2, getShortName dep = s ∧ getShortName p.1 = t := by
  unfold relPairs
  rw [List.mem_flatMap]
  constructor
  · rintro ⟨p, hp, hmem⟩
    rw [List.mem_map] at hmem
    obtain ⟨dep, hdep, heq⟩ := hmem
    exact ⟨p, hp, dep, hdep, congrArg Prod.fst heq, congrArg Prod.snd heq⟩
  · rintro ⟨p, hp, dep, hdep, hs, ht⟩
    exact ⟨p, hp, List.mem_map.mpr ⟨dep, hdep, by rw [hs, ht]⟩⟩

theorem revDeps_mem {d : Deps} {s n : String} :
    s ∈ revDeps d n ↔ (s, n) ∈ relPairs d := by
  unfold revDeps
  rw [List.mem_map]
  constructor
  · rintro ⟨e, he, rfl⟩
    rw [List.mem_filter] at he
    have h2 : e.2 = n := by simpa using he.2
    have : e = (e.1, n) := by rw [← h2]
    rw [← this]
    exact he.1
  · intro hmem
    exact ⟨(s, n), List.mem_filter.mpr ⟨hmem, by simp⟩, rfl⟩

theorem shortNodes_of_key {d : Deps} {p : String × List String} (hp : p ∈ d) :
    getShortName p.1 ∈ shortNodes d := by
  unfold shortNodes
  rw [List.mem_dedup, List.mem_flatMap]
  exact ⟨p, hp, List.mem_cons_self _ _⟩

theorem shortNodes_of_dep {d : Deps} {p : String × List String} {dep : String}
    (hp : p ∈ d) (hdep : dep ∈ p.2) : getShortName dep ∈ shortNodes d := by
  unfold shortNodes
  rw [List.mem_dedup, List.mem_flatMap]
  exact ⟨p, hp, List.mem_cons_of_mem _ (List.mem_map.mpr ⟨dep, hdep, rfl⟩)⟩

theorem relPairs_mem_shortNodes {d : Deps} {s t : String} (h : (s, t) ∈ relPairs d) :
    s ∈ shortNodes d ∧ t ∈ shortNodes d := by
  obtain ⟨p, hp, dep, hdep, hs, ht⟩ := relPairs_mem.mp h
  exact ⟨hs ▸ shortNodes_of_dep hp hdep, ht ▸ shortNodes_of_key hp⟩

theorem shortName_mem_shortNodes {d : Deps} {n : String} (h : n ∈ allNodesList d) :
    getShortName n ∈ shortNodes d := by
  unfold allNodesList at h
  rw [List.mem_dedup, List.mem_append] at h
  rcases h with hk | hv
  · rw [List.mem_map] at hk
    obtain ⟨p, hp, rfl⟩ := hk
    exact shortNodes_of_key hp
  · rw [List.mem_flatMap] at hv
    obtain ⟨p, hp, hmem⟩ := hv
    exact shortNodes_of_dep hp hmem

theorem inEdge_relPairs {d : Deps} {a b : String} (h : InEdge d a b) :
    (getShortName b, getShortName a) ∈ relPairs d := by
  obtain ⟨ds, hm, hb⟩ := h
  exact relPairs_mem.mpr ⟨(a, ds), hm, b, hb, rfl, rfl⟩

theorem inEdge_key_mem {d : Deps} {a b : String} (h : InEdge d a b) :
    a ∈ allNodesList d := by
  obtain ⟨ds, hm, _⟩ := h
  unfold allNodesList
  rw [List.mem_dedup, List.mem_append]
  exact Or.inl (List.mem_map.mpr ⟨(a, ds), hm, rfl⟩)

theorem inEdge_dep_mem {d : Deps} {a b : String} (h : InEdge d a b) :
    b ∈ allNodesList d := by
  obtain ⟨ds, hm, hb⟩ := h
  unfold allNodesList
  rw [List.mem_dedup, List.mem_append]
  exact Or.inr (List.mem_flatMap.mpr ⟨(a, ds), hm, hb⟩)

/-! ## Single-node step of the fixed-point pass -/

theorem passStep1_cases (d : Deps) (lv : List (String × Nat)) (n : String) :
    ((List.lookup n lv).isSome = true ∧ passStep1 d lv n = (lv, false)) ∨
    (List.lookup n lv = none ∧ revDeps d n = [] ∧
      passStep1 d lv n = (lv ++ [(n, 0)], true)) ∨
    (List.lookup n lv = none ∧ revDeps d n ≠ [] ∧
      (revDeps d n).all (fun s => (List.lookup s lv).isSome) = true ∧
      passStep1 d lv n = (lv ++ [(n, maxDepLevel lv (revDeps d n) + 1)], true)) ∨
    (List.lookup n lv = none ∧ revDeps d n ≠ [] ∧
      (revDeps d n).all (fun s => (List.lookup s lv).isSome) = false ∧
      passStep1 d lv n = (lv, false)) := by
  by_cases h1 : (List.lookup n lv).isSome = true
  · exact Or.inl ⟨h1, by simp only [passStep1, if_pos h1]⟩
  · have hn : List.lookup n lv = none := Option.not_isSome_iff_eq_none.mp h1
    by_cases h2 : revDeps d n = []
    · exact Or.inr (Or.inl ⟨hn, h2, by simp only [passStep1, if_neg h1, if_pos h2]⟩)
    · by_cases h3 : (revDeps d n).all (fun s => (List.lookup s lv).isSome) = true
      · exact Or.inr (Or.inr (Or.inl ⟨hn, h2, h3,
          by simp only [passStep1, if_neg h1, if_neg h2, if_pos h3]⟩))
      · exact Or.inr (Or.inr (Or.inr ⟨hn, h2, Bool.not_eq_true _ ▸ h3,
          by simp only [passStep1, if_neg h1, if_neg h2, if_neg h3]⟩))

theorem passStep1_extends (d : Deps) (lv : List (String × Nat)) (n : String) :
    LvExtends lv (passStep1 d lv n).1 := by
  intro m k hm
  rcases passStep1_cases d lv n with ⟨_, he⟩ | ⟨_, _, he⟩ | ⟨_, _, _, he⟩ | ⟨_, _, _, he⟩ <;>
    rw [he]
  · exact hm
  · exact lookup_append_some hm
  · exact lookup_append_some hm
  · exact hm

theorem passStep1_false {d : Deps} {lv : List (String × Nat)} {n : String}
    (h : (passStep1 d lv n).2 = false) : (passStep1 d lv n).1 = lv := by
  rcases passStep1_cases d lv n with ⟨_, he⟩ | ⟨_, _, he⟩ | ⟨_, _, _, he⟩ | ⟨_, _, _, he⟩ <;>
    rw [he] at h ⊢ <;> simp at h

theorem passStep1_stuck {d : Deps} {lv : List (String × Nat)} {n : String}
    (h2 : (passStep1 d lv n).2 = false) (hn : List.lookup n lv = none) :
    ∃ s ∈ revDeps d n, List.lookup s lv = none := by
  rcases passStep1_cases d lv n with ⟨hs, _⟩ | ⟨_, _, he⟩ | ⟨_, _, _, he⟩ |
      ⟨_, _, hall, _⟩
  · rw [hn] at hs; simp at hs
  · rw [he] at h2; simp at h2
  · rw [he] at h2; simp at h2
  · have := List.all_eq_false.mp hall  -- hmm check name
    obtain ⟨s, hs, hsn⟩ := this
    refine ⟨s, hs, ?_⟩
    cases hls : List.lookup s lv with
    | none => rfl
    | some v => rw [hls] at hsn; simp at hsn

theorem passStep1_inv {d : Deps} {lv : List (String × Nat)} {n : String}
    (hinv : StratInv d lv) : StratInv d (passStep1 d lv n).1 := by
  have hext : ∀ (l₂ : List (String × Nat)), StratInv d lv →
      (∀ m k, List.lookup m lv = none → List.lookup m l₂ = some k →
        (k = 0 ∧ revDeps d m = []) ∨
        (revDeps d m ≠ [] ∧ ∀ s ∈ revDeps d m,
          ∃ j, List.lookup s (lv ++ l₂) = some j ∧ j < k)) →
      StratInv d (lv ++ l₂) := by
    intro l₂ hi hnew m k hm
    rcases lookup_append_cases hm with hold | ⟨hno, hnew'⟩
    · rcases hi m k hold with h1 | ⟨hne, hall⟩
      · exact Or.inl h1
      · refine Or.inr ⟨hne, ?_⟩
        intro s hs
        obtain ⟨j, hj, hjk⟩ := hall s hs
        exact ⟨j, lookup_append_some hj, hjk⟩
    · rcases hnew m k hno hnew' with h1 | h2
      · exact Or.inl h1
      · exact Or.inr h2
  rcases passStep1_cases d lv n with ⟨_, he⟩ | ⟨_, hds, he⟩ | ⟨_, hds, hall, he⟩ |
      ⟨_, _, _, he⟩ <;> rw [he]
  · exact hinv
  · apply hext _ hinv
    intro m k _ hnew
    obtain ⟨rfl, rfl⟩ := lookup_singleton_some hnew
    exact Or.inl ⟨rfl, hds⟩
  · apply hext _ hinv
    intro m k _ hnew
    obtain ⟨rfl, rfl⟩ := lookup_singleton_some hnew
    refine Or.inr ⟨hds, ?_⟩
    intro s hs
    rw [List.all_eq_true] at hall
    have hsome := hall s hs
    cases hls : List.lookup s lv with
    | none => rw [hls] at hsome; simp at hsome
    | some j =>
      refine ⟨j, lookup_append_some hls, ?_⟩
      have hle : j ≤ maxDepLevel lv (revDeps d m) := by
        unfold maxDepLevel
        apply le_foldl_max
        rw [List.mem_map]
        exact ⟨s, hs, by rw [hls]; rfl⟩
      omega
  · exact hinv

theorem passStep1_true_new {d : Deps} {lv : List (String × Nat)} {n : String}
    (h : (passStep1 d lv n).2 = true) :
    List.lookup n lv = none ∧ (List.lookup n (passStep1 d lv n).1).isSome = true := by
  rcases passStep1_cases d lv n with ⟨_, he⟩ | ⟨hn, _, he⟩ | ⟨hn, _, _, he⟩ |
      ⟨_, _, _, he⟩ <;> rw [he] at h ⊢
  · simp at h
  · exact ⟨hn, by rw [lookup_append_none hn, lookup_singleton_self]; rfl⟩
  · exact ⟨hn, by rw [lookup_append_none hn, lookup_singleton_self]; rfl⟩
  · simp at h

/-! ## Full passes of the fixed-point loop -/

theorem lvExtends_refl (lv : List (String × Nat)) : LvExtends lv lv := fun _ _ h => h

theorem lvExtends_trans {l₁ l₂ l₃ : List (String × Nat)}
    (h₁ : LvExtends l₁ l₂) (h₂ : LvExtends l₂ l₃) : LvExtends l₁ l₃ :=
  fun n k h => h₂ n k (h₁ n k h)

theorem runPass_extends (d : Deps) :
    ∀ (order : List String) (lv : List (String × Nat)),
      LvExtends lv (runPass d order lv).1 := by
  intro order
  induction order with
  | nil => intro lv; exact lvExtends_refl lv
  | cons n t ih =>
    intro lv
    rw [runPass]
    exact lvExtends_trans (passStep1_extends d lv n) (ih (passStep1 d lv n).1)

theorem runPass_inv (d : Deps) :
    ∀ (order : List String) {lv : List (String × Nat)},
      StratInv d lv → StratInv d (runPass d order lv).1 := by
  intro order
  induction order with
  | nil => intro lv h; exact h
  | cons n t ih =>
    intro lv h
    rw [runPass]
    exact ih (passStep1_inv h)

theorem runPass_false_id (d : Deps) :
    ∀ (order : List String) {lv : List (String × Nat)},
      (runPass d order lv).2 = false → (runPass d order lv).1 = lv := by
  intro order
  induction order with
  | nil => intro lv _; rw [runPass]
  | cons n t ih =>
    intro lv h
    rw [runPass] at h ⊢
    simp only [Bool.or_eq_false_iff] at h
    have hp1 : (passStep1 d lv n).1 = lv := passStep1_false h.1
    rw [hp1] at h ⊢
    exact ih h.2

theorem runPass_false_stuck (d : Deps) :
    ∀ (order : List String) {lv : List (String × Nat)},
      (runPass d order lv).2 = false →
      ∀ n ∈ order, List.lookup n lv = none →
        ∃ s ∈ revDeps d n, List.lookup s lv = none := by
  intro order
  induction order with
  | nil => intro lv _ n hn; simp at hn
  | cons m t ih =>
    intro lv h n hn hnone
    rw [runPass] at h
    simp only [Bool.or_eq_false_iff] at h
    have hp1 : (passStep1 d lv m).1 = lv := passStep1_false h.1
    rcases List.mem_cons.mp hn with rfl | hnt
    · exact passStep1_stuck h.1 hnone
    · rw [hp1] at h
      exact ih h.2 n hnt hnone

theorem runPass_true_new (d : Deps) :
    ∀ (order : List String) {lv : List (String × Nat)},
      (runPass d order lv).2 = true →
      ∃ n ∈ order, List.lookup n lv = none ∧
        (List.lookup n (runPass d order lv).1).isSome = true := by
  intro order
  induction order with
  | nil => intro lv h; rw [runPass] at h; simp at h
  | cons m t ih =>
    intro lv h
    rw [runPass] at h ⊢
    rcases Bool.or_eq_true_iff.mp h with hp | hq
    · obtain ⟨hnone, hsome⟩ := passStep1_true_new hp
      refine ⟨m, List.mem_cons_self _ _, hnone, ?_⟩
      obtain ⟨k, hk⟩ := Option.isSome_iff_exists.mp hsome
      have := runPass_extends d t (passStep1 d lv m).1 m k hk
      rw [this]
      rfl
    · obtain ⟨n, hnt, hnone1, hsome⟩ := ih hq
      refine ⟨n, List.mem_cons_of_mem _ hnt, ?_, hsome⟩
      cases hls : List.lookup n lv with
      | none => rfl
      | some v =>
        have := passStep1_extends d lv m n v hls
        rw [this] at hnone1
        simp at hnone1

theorem unleveled_decrease {d : Deps} {order : List String} {lv : List (String × Nat)}
    (h : (runPass d order lv).2 = true) :
    unleveled order (runPass d order lv).1 < unleveled order lv := by
  obtain ⟨n, hn, hnone, hsome⟩ := runPass_true_new d order h
  apply filter_length_lt
  · intro a _ ha
    rw [Option.isNone_iff_eq_none] at ha ⊢
    cases hls : List.lookup a lv with
    | none => rfl
    | some v =>
      have := runPass_extends d order lv a v hls
      rw [this] at ha
      simp at ha
  · exact hn
  · rw [Option.isNone_iff_eq_none, hnone]
  · rw [Bool.eq_false_iff]
    intro hc
    rw [Option.isNone_iff_eq_none] at hc
    rw [hc] at hsome
    simp at hsome

/-! ## The `while changed` loop reaches a fixed point within the fuel -/

theorem levelLoop_spec (d : Deps) (order : List String) :
    ∀ (fuel : Nat) (lv : List (String × Nat)), unleveled order lv < fuel →
      ∃ lvf, levelLoop d order fuel lv = some lvf ∧ LvExtends lv lvf ∧
        (StratInv d lv → StratInv d lvf) ∧ runPass d order lvf = (lvf, false) := by
  intro fuel
  induction fuel with
  | zero => intro lv h; omega
  | succ m ih =>
    intro lv hlt
    cases hrp : (runPass d order lv).2 with
    | false =>
      have hid : (runPass d order lv).1 = lv := runPass_false_id d order hrp
      refine ⟨lv, ?_, lvExtends_refl lv, fun h => h, ?_⟩
      · rw [levelLoop, hrp]
        simp [hid]
      · cases hpair : runPass d order lv with
        | mk a b =>
          rw [hpair] at hrp hid
          simp at hrp hid
          rw [hrp, hid]
    | true =>
      have hdec : unleveled order (runPass d order lv).1 < unleveled order lv :=
        unleveled_decrease hrp
      obtain ⟨lvf, hloop, hext, hinv, hfix⟩ :=
        ih (runPass d order lv).1 (by omega)
      refine ⟨lvf, ?_, lvExtends_trans (runPass_extends d order lv) hext, ?_, hfix⟩
      · rw [levelLoop, hrp]
        simp only [if_true]
        exact hloop
      · intro h
        exact hinv (runPass_inv d order h)

/-! ## The initial pass and the defaults -/

theorem levels0_lookup {d : Deps} :
    ∀ {order : List String} {n : String} {k : Nat},
      List.lookup n (levels0 d order) = some k → k = 0 ∧ revDeps d n = [] := by
  intro order
  induction order with
  | nil => intro n k h; simp [levels0, List.lookup] at h
  | cons m t ih =>
    intro n k h
    rw [levels0] at h
    by_cases hm : revDeps d m = []
    · rw [if_pos hm] at h
      rw [List.lookup] at h
      cases hnm : (n == m) with
      | true =>
        rw [hnm] at h
        cases h
        have : n = m := by simpa using hnm
        exact ⟨rfl, this ▸ hm⟩
      | false =>
        rw [hnm] at h
        exact ih h
    · rw [if_neg hm] at h
      exact ih h

theorem levels0_inv (d : Deps) (order : List String) : StratInv d (levels0 d order) := by
  intro n k h
  obtain ⟨rfl, hrev⟩ := levels0_lookup h
  exact Or.inl ⟨rfl, hrev⟩

theorem fillDefaults_lookup {lv : List (String × Nat)} :
    ∀ {order : List String} {n : String}, n ∈ order → List.lookup n lv = none →
      List.lookup n (fillDefaults lv order) = some 0 := by
  intro order
  induction order with
  | nil => intro n hn; simp at hn
  | cons m t ih =>
    intro n hn hnone
    rw [fillDefaults]
    by_cases hm : (List.lookup m lv).isSome = true
    · rw [if_pos hm]
      rcases List.mem_cons.mp hn with rfl | hnt
      · rw [hnone] at hm; simp at hm
      · exact ih hnt hnone
    · rw [if_neg hm]
      rw [List.lookup]
      cases hnm : (n == m) with
      | true => rfl
      | false =>
        rcases List.mem_cons.mp hn with rfl | hnt
        · simp at hnm
        · exact ih hnt hnone

theorem fillDefaults_empty {lv : List (String × Nat)} :
    ∀ {order : List String}, (∀ n ∈ order, (List.lookup n lv).isSome = true) →
      fillDefaults lv order = [] := by
  intro order
  induction order with
  | nil => intro _; rw [fillDefaults]
  | cons m t ih =>
    intro h
    rw [fillDefaults, if_pos (h m (List.mem_cons_self _ _))]
    exact ih (fun n hn => h n (List.mem_cons_of_mem _ hn))

/-! ## `calcLevels` always returns (the loop terminates on every input) -/

theorem calcLevels_spec (d : Deps) (order : List String) :
    ∃ lvf, calcLevels d order = some (lvf ++ fillDefaults lvf order) ∧
      LvExtends (levels0 d order) lvf ∧ StratInv d lvf ∧
      runPass d order lvf = (lvf, false) := by
  have hfuel : unleveled order (levels0 d order) < order.length + 1 := by
    have := List.length_filter_le
      (fun n => (List.lookup n (levels0 d order)).isNone) order
    unfold unleveled
    omega
  obtain ⟨lvf, hloop, hext, hinv, hfix⟩ :=
    levelLoop_spec d order (order.length + 1) (levels0 d order) hfuel
  refine ⟨lvf, ?_, hext, hinv (levels0_inv d order), hfix⟩
  unfold calcLevels
  rw [hloop]

theorem calcLevels_total (d : Deps) (order : List String) :
    ∃ lv, calcLevels d order = some lv ∧
      ∀ n ∈ order, (List.lookup n lv).isSome = true := by
  obtain ⟨lvf, hcalc, _, _, _⟩ := calcLevels_spec d order
  refine ⟨_, hcalc, ?_⟩
  intro n hn
  cases hls : List.lookup n lvf with
  | some v => rw [lookup_append_some hls]; rfl
  | none =>
    rw [lookup_append_none hls, fillDefaults_lookup hn hls]
    rfl

/-! ## At a fixed point of an acyclic graph, every node is levelled -/

theorem fixpoint_complete {d : Deps} {order : List String} {lv : List (String × Nat)}
    (hac : ShortAcyclic d) (he : IsShortEnum d order)
    (hfix : runPass d order lv = (lv, false)) :
    ∀ n ∈ order, (List.lookup n lv).isSome = true := by
  by_contra hcon
  push_neg at hcon
  obtain ⟨n0, hn0, hn0none⟩ := hcon
  have hn0none' : List.lookup n0 lv = none := by
    cases hls : List.lookup n0 lv with
    | none => rfl
    | some v => rw [hls] at hn0none; simp at hn0none
  haveI : Fintype { x // x ∈ shortNodes d } := List.Subtype.fintype _
  let r : { x // x ∈ shortNodes d } → { x // x ∈ shortNodes d } → Prop :=
    fun a b => Relation.TransGen (SEdge d) a.val b.val
  haveI : IsTrans { x // x ∈ shortNodes d } r :=
    ⟨fun _ _ _ hab hbc => hab.trans hbc⟩
  haveI : IsIrrefl { x // x ∈ shortNodes d } r :=
    ⟨fun a h => hac ⟨a.val, h⟩⟩
  have hwf : WellFounded r := Finite.wellFounded_of_trans_of_irrefl r
  have hstuck : ∀ n ∈ order, List.lookup n lv = none →
      ∃ s ∈ revDeps d n, List.lookup s lv = none := by
    intro n hn hnone
    apply runPass_false_stuck d order _ n hn hnone
    rw [hfix]
  obtain ⟨m, hmS, hmin⟩ := hwf.has_min
    {x | x.val ∈ order ∧ List.lookup x.val lv = none}
    ⟨⟨n0, he.2.1 n0 hn0⟩, hn0, hn0none'⟩
  obtain ⟨s, hs, hsnone⟩ := hstuck m.val hmS.1 hmS.2
  have hedge : (s, m.val) ∈ relPairs d := revDeps_mem.mp hs
  have hsshort : s ∈ shortNodes d := (relPairs_mem_shortNodes hedge).1
  exact hmin ⟨s, hsshort⟩ ⟨he.2.2 s hsshort, hsnone⟩
    (Relation.TransGen.single hedge)

/-! ## Level correctness on an acyclic merged graph -/

theorem calcLevels_acyclic_core {d : Deps} {order : List String}
    (he : IsShortEnum d order) (hac : ShortAcyclic d) :
    ∃ lv, calcLevels d order = some lv ∧
      (∀ n ∈ order, (List.lookup n lv).isSome = true) ∧
      (∀ n ∈ order, (List.lookup n lv = some 0 ↔ revDeps d n = [])) ∧
      (∀ s t, (s, t) ∈ relPairs d →
        ∃ js jt, List.lookup s lv = some js ∧ List.lookup t lv = some jt ∧ js < jt) := by
  obtain ⟨lvf, hcalc, _, hinv, hfix⟩ := calcLevels_spec d order
  have hcomp := fixpoint_complete hac he hfix
  have hdef : fillDefaults lvf order = [] := fillDefaults_empty hcomp
  rw [hdef, List.append_nil] at hcalc
  refine ⟨lvf, hcalc, hcomp, ?_, ?_⟩
  · intro n hn
    constructor
    · intro h0
      rcases hinv n 0 h0 with ⟨_, hrev⟩ | ⟨hne, hall⟩
      · exact hrev
      · exfalso
        obtain ⟨s, hs⟩ := List.exists_mem_of_ne_nil _ hne
        obtain ⟨j, _, hj⟩ := hall s hs
        omega
    · intro hrev
      obtain ⟨k, hk⟩ := Option.isSome_iff_exists.mp (hcomp n hn)
      rcases hinv n k hk with ⟨rfl, _⟩ | ⟨hne, _⟩
      · exact hk
      · exact absurd hrev hne
  · intro s t hst
    have htB : t ∈ order := he.2.2 t (relPairs_mem_shortNodes hst).2
    obtain ⟨kt, hkt⟩ := Option.isSome_iff_exists.mp (hcomp t htB)
    have hsrev : s ∈ revDeps d t := revDeps_mem.mpr hst
    rcases hinv t kt hkt with ⟨_, hrev⟩ | ⟨_, hall⟩
    · rw [hrev] at hsrev; simp at hsrev
    · obtain ⟨js, hjs, hlt⟩ := hall s hsrev
      exact ⟨js, kt, hjs, hkt, hlt⟩

/-! ## Lifting short-name cycles back to the input relation -/

theorem sedge_transGen_lift {d : Deps} (hinj : ShortInj d) :
    ∀ {x y : String}, Relation.TransGen (SEdge d) x y →
      ∃ a b, a ∈ allNodesList d ∧ b ∈ allNodesList d ∧
        getShortName a = x ∧ getShortName b = y ∧
        Relation.TransGen (Function.swap (InEdge d)) a b := by
  intro x y h
  induction h with
  | @single z hz =>
    obtain ⟨p, hp, dep, hdep, hs, ht⟩ := relPairs_mem.mp hz
    have hpe : (p.1, p.2) ∈ d := by rw [Prod.mk.eta]; exact hp
    have hInE : InEdge d p.1 dep := ⟨p.2, hpe, hdep⟩
    exact ⟨dep, p.1, inEdge_dep_mem hInE, inEdge_key_mem hInE, hs, ht,
      Relation.TransGen.single hInE⟩
  | @tail u z _ hz ih =>
    obtain ⟨a, b, ha, hb, hsa, hsb, htg⟩ := ih
    obtain ⟨p, hp, dep, hdep, hs, ht⟩ := relPairs_mem.mp hz
    have hpe : (p.1, p.2) ∈ d := by rw [Prod.mk.eta]; exact hp
    have hInE : InEdge d p.1 dep := ⟨p.2, hpe, hdep⟩
    have hdepb : dep = b :=
      hinj dep (inEdge_dep_mem hInE) b hb (by rw [hs, hsb])
    subst hdepb
    exact ⟨a, p.1, ha, inEdge_key_mem hInE, hsa, ht,
      Relation.TransGen.tail htg hInE⟩

theorem shortAcyclic_of_inj {d : Deps} (hinj : ShortInj d) (hac : InAcyclic d) :
    ShortAcyclic d := by
  rintro ⟨n, h⟩
  obtain ⟨a, b, ha, hb, hsa, hsb, htg⟩ := sedge_transGen_lift hinj h
  have hab : a = b := hinj a ha b hb (by rw [hsa, hsb])
  subst hab
  exact hac ⟨a, Relation.transGen_swap.mp htg⟩

theorem revDeps_shortName_nil_iff {d : Deps} (hinj : ShortInj d) {n : String}
    (hn : n ∈ allNodesList d) :
    revDeps d (getShortName n) = [] ↔ HasNoDeps d n := by
  constructor
  · intro hrev p hp hpn
    by_contra hne
    obtain ⟨dep, hdep⟩ := List.exists_mem_of_ne_nil _ hne
    have hpe : (p.1, p.2) ∈ d := by rw [Prod.mk.eta]; exact hp
    have hInE : InEdge d p.1 dep := ⟨p.2, hpe, hdep⟩
    have hpair := inEdge_relPairs hInE
    rw [hpn] at hpair
    have hmem : getShortName dep ∈ revDeps d (getShortName n) := revDeps_mem.mpr hpair
    rw [hrev] at hmem
    simp at hmem
  · intro hnd
    rw [List.eq_nil_iff_forall_not_mem]
    intro s hs
    obtain ⟨p, hp, dep, hdep, _, hsp⟩ := relPairs_mem.mp (revDeps_mem.mp hs)
    have hpe : (p.1, p.2) ∈ d := by rw [Prod.mk.eta]; exact hp
    have hp1mem : p.1 ∈ allNodesList d := inEdge_key_mem ⟨p.2, hpe, hdep⟩
    have hp1n : p.1 = n := hinj p.1 hp1mem n hn (by rw [hsp])
    have hempty := hnd p hp hp1n
    rw [hempty] at hdep
    simp at hdep

theorem inAcyclic_of_rank (d : Deps) (f : String → Nat)
    (hf : ∀ a b, InEdge d a b → f b < f a) : InAcyclic d := by
  rintro ⟨a, h⟩
  have hlt : ∀ {x y}, Relation.TransGen (InEdge d) x y → f y < f x := by
    intro x y htg
    induction htg with
    | single hr => exact hf _ _ hr
    | tail _ hr ih => exact lt_trans (hf _ _ hr) ih
  exact lt_irrefl (f a) (hlt h)

/-! ## Claim theorems for the level stratifier -/

/-- C3 (amended): for every acyclic dependency relation whose nodes keep
distinct short display names, the level computation terminates with a
map in which a node's short name is levelled 0 exactly when the node has
no dependencies, and for every edge where `a` depends on `b`,
`level(short b) < level(short a)` strictly.  (The amendment adds the
distinct-short-names hypothesis forced by the counterexample.) -/
theorem claim_C3_amended_levels (d : Deps) (order : List String)
    (he : IsShortEnum d order) (hinj : ShortInj d) (hac : InAcyclic d) :
    ∃ lv, calcLevels d order = some lv ∧
      (∀ n ∈ allNodesList d,
        (List.lookup (getShortName n) lv = some 0 ↔ HasNoDeps d n)) ∧
      (∀ a b, InEdge d a b →
        ∃ ja jb, List.lookup (getShortName a) lv = some ja ∧
          List.lookup (getShortName b) lv = some jb ∧ jb < ja) := by
  obtain ⟨lv, hcalc, _, hzero, hstrict⟩ :=
    calcLevels_acyclic_core he (shortAcyclic_of_inj hinj hac)
  refine ⟨lv, hcalc, ?_, ?_⟩
  · intro n hn
    rw [hzero (getShortName n) (he.2.2 _ (shortName_mem_shortNodes hn))]
    exact revDeps_shortName_nil_iff hinj hn
  · intro a b hab
    obtain ⟨js, jt, hjs, hjt, hlt⟩ := hstrict _ _ (inEdge_relPairs hab)
    exact ⟨jt, js, hjt, hjs, hlt⟩

/-- Witness for the amended C3 at the concrete relation
`{http://f#P ↦ {http://f#Q}}` (short names `P`, `Q` are distinct). -/
theorem claim_C3_witness :
    ∃ lv, calcLevels [("http://f#P", ["http://f#Q"])] ["P", "Q"] = some lv ∧
      (∀ n ∈ allNodesList [("http://f#P", ["http://f#Q"])],
        (List.lookup (getShortName n) lv = some 0 ↔
          HasNoDeps [("http://f#P", ["http://f#Q"])] n)) ∧
      (∀ a b, InEdge [("http://f#P", ["http://f#Q"])] a b →
        ∃ ja jb, List.lookup (getShortName a) lv = some ja ∧
          List.lookup (getShortName b) lv = some jb ∧ jb < ja) := by
  apply claim_C3_amended_levels _ _ (by decide) (by decide)
  apply inAcyclic_of_rank _ (fun s => if s = "http://f#P" then 1 else 0)
  intro a b hab
  obtain ⟨ds, hm, hb⟩ := hab
  simp only [List.mem_singleton, Prod.mk.injEq] at hm
  obtain ⟨rfl, rfl⟩ := hm
  simp only [List.mem_singleton] at hb
  subst hb
  decide

/-- Counterexample to C3 as stated: the relation
`{http://a#X ↦ {http://b#X}}` is acyclic, but both URIs share the short
name `X`, so the merged graph has the self-loop `(X, X)`: the fixed-point
loop never levels `X` and the safety net defaults it to level 0.  Node
`http://a#X` has a dependency yet its short name is levelled 0 (refuting
"level 0 exactly for the nodes with no dependencies"), and the edge gets
`level(short b) = level(short a) = 0` (refuting strictness). -/
theorem claim_C3_counterexample :
    IsShortEnum [("http://a#X", ["http://b#X"])] ["X"] ∧
    InAcyclic [("http://a#X", ["http://b#X"])] ∧
    InEdge [("http://a#X", ["http://b#X"])] "http://a#X" "http://b#X" ∧
    ¬ HasNoDeps [("http://a#X", ["http://b#X"])] "http://a#X" ∧
    getShortName "http://a#X" = "X" ∧ getShortName "http://b#X" = "X" ∧
    calcLevels [("http://a#X", ["http://b#X"])] ["X"] = some [("X", 0)] ∧
    List.lookup (getShortName "http://a#X") [("X", 0)] = some 0 ∧
    List.lookup (getShortName "http://b#X") [("X", 0)] = some 0 := by
  refine ⟨by decide, ?_, ⟨["http://b#X"], by decide, by decide⟩, by decide,
    by decide, by decide, by decide, by decide, by decide⟩
  apply inAcyclic_of_rank _ (fun s => if s = "http://a#X" then 1 else 0)
  intro a b hab
  obtain ⟨ds, hm, hb⟩ := hab
  simp only [List.mem_singleton, Prod.mk.injEq] at hm
  obtain ⟨rfl, rfl⟩ := hm
  simp only [List.mem_singleton] at hb
  subst hb
  decide

/-- C7 (amended): the fixed-point loop of the level computation
terminates on every input — cyclic or not — because a pass that assigns
no level leaves `changed` false and exits the loop; nodes of a cycle are
then defaulted to level 0, so every node ends up levelled. -/
theorem claim_C7_amended_loop_terminates (d : Deps) (order : List String) :
    ∃ lv, calcLevels d order = some lv ∧
      ∀ n ∈ order, (List.lookup n lv).isSome = true :=
  calcLevels_total d order

/-- Witness for the amended C7 at the concrete cyclic relation. -/
theorem claim_C7_witness :
    ∃ lv, calcLevels [("X", ["Y"]), ("Y", ["X"])] ["X", "Y"] = some lv ∧
      (List.lookup "X" lv).isSome = true ∧ (List.lookup "Y" lv).isSome = true := by
  obtain ⟨lv, h1, h2⟩ :=
    claim_C7_amended_loop_terminates [("X", ["Y"]), ("Y", ["X"])] ["X", "Y"]
  exact ⟨lv, h1, h2 "X" (by decide), h2 "Y" (by decide)⟩

/-- Counterexample to C7 as stated: the cyclic relation
`{X ↦ {Y}, Y ↦ {X}}` makes the fixed-point loop terminate (it does not
run forever): `calcLevels` returns, with both cycle nodes defaulted to
level 0 by the safety net of lines 209-212. -/
theorem claim_C7_counterexample :
    InHasCycle [("X", ["Y"]), ("Y", ["X"])] ∧
    calcLevels [("X", ["Y"]), ("Y", ["X"])] ["X", "Y"] = some [("X", 0), ("Y", 0)] := by
  constructor
  · have h1 : InEdge [("X", ["Y"]), ("Y", ["X"])] "X" "Y" :=
      ⟨["Y"], by decide, by decide⟩
    have h2 : InEdge [("X", ["Y"]), ("Y", ["X"])] "Y" "X" :=
      ⟨["X"], by decide, by decide⟩
    exact ⟨"X", Relation.TransGen.tail (Relation.TransGen.single h1) h2⟩
  · decide

/-! ## Claim theorem for `normalize_results` -/

/-- C10: `normalize_results` returns its input unchanged for every
single-row input whose row contains a key named `result` — including a
one-row SELECT result whose binding variable happens to be named
`result`, not only boolean ASK outcomes; for every other non-empty
input (a single row without that key, or two or more rows), every bound
value is stringified and values containing the base namespace are
rewritten to `:localname` form (the `normRow` map). -/
theorem claim_C10_normalize_branches :
    (∀ r : Row, hasResultKey r = true → normalize_results [r] = [r]) ∧
    (∀ r : Row, hasResultKey r = false → normalize_results [r] = [normRow r]) ∧
    (∀ (r r2 : Row) (rest : List Row),
      normalize_results (r :: r2 :: rest) = (r :: r2 :: rest).map normRow) := by
  refine ⟨?_, ?_, ?_⟩
  · intro r h
    rw [normalize_results, if_pos h]
  · intro r h
    rw [normalize_results, if_neg (by rw [h]; simp)]
  · intro r r2 rest
    rw [normalize_results]

/-- Witness for C10: an ASK row, a SELECT row whose variable is named
`result`, a namespace-compacted URI value, and a two-row input. -/
theorem claim_C10_witness :
    normalize_results [[("result", PyVal.bool true)]]
      = [[("result", PyVal.bool true)]] ∧
    normalize_results [[("result", PyVal.str "bob")]]
      = [[("result", PyVal.str "bob")]] ∧
    normalize_results [[("x", PyVal.uri "http://example.org/family#alice")]]
      = [[("x", PyVal.str ":alice")]] ∧
    normalize_results [[("x", PyVal.str "a")], [("y", PyVal.lit "b")]]
      = [[("x", PyVal.str "a")], [("y", PyVal.str "b")]] := by
  refine ⟨claim_C10_normalize_branches.1 _ (by decide),
          claim_C10_normalize_branches.1 _ (by decide),
          (claim_C10_normalize_branches.2.1 _ (by decide)).trans (by decide),
          (claim_C10_normalize_branches.2.2 _ _ _).trans (by decide)⟩

/-! ## Claim theorems for the run counters -/

theorem run_test_counts {σ : Type} (B : Backend σ) (s : σ) (tid : String)
    (tc : TestCase) (st : RunnerResults) :
    (run_test B s tid tc st).2.2.passed + (run_test B s tid tc st).2.2.failed
        = st.passed + st.failed + 1 ∧
    (run_test B s tid tc st).2.2.total = st.total := by
  unfold run_test
  cases hq : B.execQuery s (ensureNs (stripStr tc.query)) with
  | mk r s' =>
    cases r with
    | error e =>
      constructor
      · simp only []
        omega
      · simp only []
    | ok results =>
      by_cases hc : compareResults (normalize_results results) tc.expected = true
      · constructor
        · simp only [if_pos hc]
          omega
        · simp only [if_pos hc]
      · constructor
        · simp only [if_neg hc]
          omega
        · simp only [if_neg hc]

theorem runTestList_counts {σ : Type} (B : Backend σ) :
    ∀ (tests : List (String × TestCase)) (s : σ) (st : RunnerResults),
      (runTestList B tests s st).2.passed + (runTestList B tests s st).2.failed
         = st.passed + st.failed + tests.length ∧
      (runTestList B tests s st).2.total = st.total := by
  intro tests
  induction tests with
  | nil => intro s st; rw [runTestList]; simp
  | cons p rest ih =>
    intro s st
    obtain ⟨tid, tc⟩ := p
    rw [runTestList]
    obtain ⟨h1, h2⟩ := ih (run_test B s tid tc st).2.1 (run_test B s tid tc st).2.2
    obtain ⟨h3, h4⟩ := run_test_counts B s tid tc st
    refine ⟨?_, h2.trans h4⟩
    rw [h1, h3]
    simp [List.length_cons]
    omega

/-- C9 (amended): each executed test increments exactly one of the two
counters and never touches `total`; a test whose query raises is
recorded with status ERROR and counted in `failed`; and a completed
`run_tests` call that STARTS FROM ZEROED counters (a fresh runner)
satisfies `total = passed + failed`.  (The zeroed-start hypothesis is
forced by the counterexample: `total` is overwritten while
`passed`/`failed` accumulate across calls on the same runner.) -/
theorem claim_C9_amended_counters :
    (∀ (σ : Type) (B : Backend σ) (s : σ) (tid : String) (tc : TestCase)
        (st : RunnerResults),
      (run_test B s tid tc st).2.2.passed + (run_test B s tid tc st).2.2.failed
          = st.passed + st.failed + 1 ∧
      (run_test B s tid tc st).2.2.total = st.total) ∧
    (∀ (σ : Type) (B : Backend σ) (s : σ) (tid : String) (tc : TestCase)
        (st : RunnerResults) (e : String) (s2 : σ),
      B.execQuery s (ensureNs (stripStr tc.query)) = (.error e, s2) →
      run_test B s tid tc st = (false, s2,
        { st with
            failed := st.failed + 1,
            details := st.details ++ [(tid, TStatus.error)] })) ∧
    (∀ (σ : Type) (B : Backend σ) (suite : List (String × TestCase))
        (ids : Option (List String)) (s : σ) (st : RunnerResults)
        (s' : σ) (st' : RunnerResults),
      st.passed = 0 → st.failed = 0 →
      run_tests B suite ids s st = .ok (s', st') →
      st'.total = st'.passed + st'.failed) := by
  refine ⟨fun σ B s tid tc st => run_test_counts B s tid tc st, ?_, ?_⟩
  · intro σ B s tid tc st e s2 hq
    unfold run_test
    rw [hq]
  · intro σ B suite ids s st s' st' hp hf hok
    have main : ∀ (tests : List (String × TestCase)),
        runTestList B tests s { st with total := tests.length } = (s', st') →
        st'.total = st'.passed + st'.failed := by
      intro tests hrun
      obtain ⟨h1, h2⟩ :=
        runTestList_counts B tests s { st with total := tests.length }
      rw [hrun] at h1 h2
      simp at h1 h2
      omega
    match ids with
    | none =>
      have hok2 : Except.ok (ε := String) (runAllSorted B suite s st)
          = .ok (s', st') := hok
      injection hok2 with hok'
      exact main _ (by rw [← hok']; rfl)
    | some [] =>
      have hok2 : Except.ok (ε := String) (runAllSorted B suite s st)
          = .ok (s', st') := hok
      injection hok2 with hok'
      exact main _ (by rw [← hok']; rfl)
    | some (tid0 :: tids) =>
      by_cases hall : ((tid0 :: tids).all
          (fun tid => (List.lookup tid suite).isSome)) = true
      · have hok2 : Except.ok (ε := String)
            (runTestList B (idTests suite (tid0 :: tids)) s
              { st with total := (idTests suite (tid0 :: tids)).length })
            = .ok (s', st') := by
          rw [← hok]
          show _ = run_tests B suite (some (tid0 :: tids)) s st
          rw [run_tests, if_pos hall]
        injection hok2 with hok'
        exact main _ hok'
      · have hok2 : Except.error (α := σ × RunnerResults) "Test ID(s) not found"
            = .ok (s', st') := by
          rw [← hok]
          show _ = run_tests B suite (some (tid0 :: tids)) s st
          rw [run_tests, if_neg hall]
        simp at hok2

/-- Counterexample to C9 as stated: a second `run_tests` call on the
same runner overwrites `total` with the new test count but keeps
accumulating `passed`, so after the second call `total = 1` while
`passed + failed = 2`. -/
theorem claim_C9_counterexample :
    run_tests cexBackend cexSuitePass (some ["1"]) () initResults
      = .ok ((), ⟨1, 1, 0, [("1", TStatus.pass)]⟩) ∧
    run_tests cexBackend cexSuitePass (some ["1"]) ()
        ⟨1, 1, 0, [("1", TStatus.pass)]⟩
      = .ok ((), ⟨1, 2, 0, [("1", TStatus.pass), ("1", TStatus.pass)]⟩) ∧
    (1 : Nat) ≠ 2 + 0 :=
  ⟨by rfl, by rfl, by decide⟩

/-- Witness for the amended C9: the theorem applied to a raising
backend (ERROR counted in `failed`) and to a fresh one-test run. -/
theorem claim_C9_witness :
    run_test cexBackendErr () "1" cexTcPass initResults
      = (false, (), { initResults with
          failed := initResults.failed + 1,
          details := initResults.details ++ [("1", TStatus.error)] }) ∧
    ((⟨1, 1, 0, [("1", TStatus.pass)]⟩ : RunnerResults).total
      = (⟨1, 1, 0, [("1", TStatus.pass)]⟩ : RunnerResults).passed
        + (⟨1, 1, 0, [("1", TStatus.pass)]⟩ : RunnerResults).failed) :=
  ⟨claim_C9_amended_counters.2.1 Unit cexBackendErr () "1" cexTcPass initResults
      "boom" () (by rfl),
   claim_C9_amended_counters.2.2 Unit cexBackend cexSuitePass (some ["1"]) ()
      initResults () ⟨1, 1, 0, [("1", TStatus.pass)]⟩ rfl rfl (by rfl)⟩

/-! ## Claim theorem for the result comparator -/


theorem charLtB_iff (a b : Char) : (decide (a.val < b.val) = true) ↔ a.toNat < b.toNat := by
  simp [UInt32.lt_def, BitVec.lt_def, UInt32.toNat, Char.toNat]

theorem charEq_of_toNat_eq {a b : Char} (h : a.toNat = b.toNat) : a = b :=
  Char.ext (UInt32.eq_of_val_eq (Fin.ext h))

theorem charListLeB_total : ∀ x y : List Char, charListLeB x y = true ∨ charListLeB y x = true
  | [], _ => Or.inl rfl
  | _ :: _, [] => Or.inr rfl
  | a :: as, b :: bs => by
    by_cases hab : a = b
    · subst hab
      rcases charListLeB_total as bs with h | h
      · exact Or.inl (by simp [charListLeB, h])
      · exact Or.inr (by simp [charListLeB, h])
    · have hne : a.toNat ≠ b.toNat := fun hc => hab (charEq_of_toNat_eq hc)
      rcases Nat.lt_or_ge a.toNat b.toNat with h | h
      · exact Or.inl (by simp [charListLeB, if_neg hab, (charLtB_iff a b).mpr h])
      · have h' : b.toNat < a.toNat := lt_of_le_of_ne h (Ne.symm hne)
        exact Or.inr (by simp [charListLeB, if_neg (Ne.symm hab), (charLtB_iff b a).mpr h'])

theorem charListLeB_trans : ∀ {x y z : List Char},
    charListLeB x y = true → charListLeB y z = true → charListLeB x z = true
  | [], _, _, _, _ => rfl
  | _ :: _, [], _, h1, _ => by simp [charListLeB] at h1
  | _ :: _, _ :: _, [], _, h2 => by simp [charListLeB] at h2
  | a :: as, b :: bs, c :: cs, h1, h2 => by
    by_cases hab : a = b <;> by_cases hbc : b = c
    · subst hab; subst hbc
      simp only [charListLeB, if_pos rfl] at h1 h2 ⊢
      exact charListLeB_trans h1 h2
    · subst hab
      simp only [charListLeB, if_neg hbc] at h2 ⊢
      exact h2
    · subst hbc
      simp only [charListLeB, if_neg hab] at h1 ⊢
      exact h1
    · rw [charListLeB, if_neg hab] at h1
      rw [charListLeB, if_neg hbc] at h2
      have hac : a.toNat < c.toNat := lt_trans ((charLtB_iff a b).mp h1) ((charLtB_iff b c).mp h2)
      have hne : a ≠ c := fun hc => by subst hc; exact absurd hac (lt_irrefl _)
      rw [charListLeB, if_neg hne]
      exact (charLtB_iff a c).mpr hac

theorem charListLeB_antisymm : ∀ {x y : List Char},
    charListLeB x y = true → charListLeB y x = true → x = y
  | [], [], _, _ => rfl
  | [], _ :: _, _, h2 => by simp [charListLeB] at h2
  | _ :: _, [], h1, _ => by simp [charListLeB] at h1
  | a :: as, b :: bs, h1, h2 => by
    by_cases hab : a = b
    · subst hab
      simp only [charListLeB, if_pos rfl] at h1 h2
      rw [charListLeB_antisymm h1 h2]
    · rw [charListLeB, if_neg hab] at h1
      rw [charListLeB, if_neg (Ne.symm hab)] at h2
      have := (charLtB_iff a b).mp h1
      have := (charLtB_iff b a).mp h2
      omega

theorem stringDataInj : ∀ {s t : String}, s.data = t.data → s = t := by
  intro s t h; cases s; cases t; exact congrArg String.mk h

theorem escape_det (q : Char) (hq : q ≠ '\\') : ∀ (a b x y : List Char),
    escapeChars q a ++ q :: x = escapeChars q b ++ q :: y → a = b ∧ x = y := by
  intro a
  induction a with
  | nil =>
    intro b x y h
    cases b with
    | nil =>
      simp only [escapeChars, List.nil_append, List.cons.injEq] at h
      exact ⟨rfl, h.2⟩
    | cons d ds =>
      exfalso
      by_cases hd : d = '\\' ∨ d = q
      · simp only [escapeChars, if_pos hd, List.nil_append, List.cons_append,
          List.cons.injEq] at h
        exact hq h.1
      · simp only [escapeChars, if_neg hd, List.nil_append, List.cons_append,
          List.cons.injEq] at h
        push_neg at hd
        exact hd.2 h.1.symm
  | cons c cs ih =>
    intro b x y h
    cases b with
    | nil =>
      exfalso
      by_cases hc : c = '\\' ∨ c = q
      · simp only [escapeChars, if_pos hc, List.nil_append, List.cons_append,
          List.cons.injEq] at h
        exact hq h.1.symm
      · simp only [escapeChars, if_neg hc, List.nil_append, List.cons_append,
          List.cons.injEq] at h
        push_neg at hc
        exact hc.2 h.1
    | cons d ds =>
      by_cases hc : c = '\\' ∨ c = q <;> by_cases hd : d = '\\' ∨ d = q
      · simp only [escapeChars, if_pos hc, if_pos hd, List.cons_append,
          List.cons.injEq] at h
        obtain ⟨h1, h2⟩ := ih ds x y h.2.2
        exact ⟨by rw [h.2.1, h1], h2⟩
      · exfalso
        simp only [escapeChars, if_pos hc, if_neg hd, List.cons_append,
          List.cons.injEq] at h
        push_neg at hd
        exact hd.1 h.1.symm
      · exfalso
        simp only [escapeChars, if_neg hc, if_pos hd, List.cons_append,
          List.cons.injEq] at h
        push_neg at hc
        exact hc.1 h.1
      · simp only [escapeChars, if_neg hc, if_neg hd, List.cons_append,
          List.cons.injEq] at h
        obtain ⟨h1, h2⟩ := ih ds x y h.2
        exact ⟨by rw [h.1, h1], h2⟩

theorem pyStrRepr_det : ∀ (a b x y : List Char),
    pyStrRepr a ++ x = pyStrRepr b ++ y → a = b ∧ x = y := by
  intro a b x y h
  unfold pyStrRepr at h
  split at h <;> split at h <;>
    simp only [List.cons_append, List.append_assoc, List.singleton_append,
      List.cons.injEq] at h
  · exact escape_det '"' (by decide) a b x y h.2
  · exact absurd h.1 (by decide)
  · exact absurd h.1 (by decide)
  · exact escape_det '\'' (by decide) a b x y h.2

theorem pyStrRepr_shape (s : List Char) :
    ∃ t, pyStrRepr s = '\'' :: t ∨ pyStrRepr s = '"' :: t := by
  unfold pyStrRepr; split
  · exact ⟨_, Or.inr rfl⟩
  · exact ⟨_, Or.inl rfl⟩

theorem pyValRepr_det : ∀ {v w : PyVal} {x y : List Char},
    pyValRepr v ++ x = pyValRepr w ++ y → v = w ∧ x = y := by
  intro v w x y h
  cases v with
  | str s =>
    cases w with
    | str t =>
      obtain ⟨h1, h2⟩ := pyStrRepr_det s.data t.data x y h
      exact ⟨congrArg PyVal.str (stringDataInj h1), h2⟩
    | bool b =>
      exfalso
      obtain ⟨u, hu | hu⟩ := pyStrRepr_shape s.data <;>
        cases b <;> simp only [pyValRepr] at h <;> rw [hu] at h <;> simp at h
    | uri t =>
      exfalso
      obtain ⟨u, hu | hu⟩ := pyStrRepr_shape s.data <;>
        simp only [pyValRepr] at h <;> rw [hu] at h <;> simp [uriTag] at h
    | lit t =>
      exfalso
      obtain ⟨u, hu | hu⟩ := pyStrRepr_shape s.data <;>
        simp only [pyValRepr] at h <;> rw [hu] at h <;> simp [litTag] at h
  | bool b =>
    cases w with
    | str t =>
      exfalso
      obtain ⟨u, hu | hu⟩ := pyStrRepr_shape t.data <;>
        cases b <;> simp only [pyValRepr] at h <;> rw [hu] at h <;> simp at h
    | bool c =>
      cases b <;> cases c <;> simp [pyValRepr] at h <;> simp [h]
    | uri t => exfalso; cases b <;> simp [pyValRepr, uriTag] at h
    | lit t => exfalso; cases b <;> simp [pyValRepr, litTag] at h
  | uri s =>
    cases w with
    | str t =>
      exfalso
      obtain ⟨u, hu | hu⟩ := pyStrRepr_shape t.data <;>
        simp only [pyValRepr] at h <;> rw [hu] at h <;> simp [uriTag] at h
    | bool c => exfalso; cases c <;> simp [pyValRepr, uriTag] at h
    | uri t =>
      simp only [pyValRepr, List.cons_append, List.append_assoc,
        List.singleton_append] at h
      have h2 := List.append_cancel_left h
      simp only [List.cons.injEq, true_and] at h2
      obtain ⟨h3, h4⟩ := pyStrRepr_det s.data t.data _ _ h2
      exact ⟨congrArg PyVal.uri (stringDataInj h3), by simpa using h4⟩
    | lit t => exfalso; simp [pyValRepr, uriTag, litTag] at h
  | lit s =>
    cases w with
    | str t =>
      exfalso
      obtain ⟨u, hu | hu⟩ := pyStrRepr_shape t.data <;>
        simp only [pyValRepr] at h <;> rw [hu] at h <;> simp [litTag] at h
    | bool c => exfalso; cases c <;> simp [pyValRepr, litTag] at h
    | uri t => exfalso; simp [pyValRepr, uriTag, litTag] at h
    | lit t =>
      simp only [pyValRepr, List.cons_append, List.append_assoc,
        List.singleton_append] at h
      have h2 := List.append_cancel_left h
      simp only [List.cons.injEq, true_and] at h2
      obtain ⟨h3, h4⟩ := pyStrRepr_det s.data t.data _ _ h2
      exact ⟨congrArg PyVal.lit (stringDataInj h3), by simpa using h4⟩

theorem pairRepr_det : ∀ (p q : String × PyVal) (x y : List Char),
    pairRepr p ++ x = pairRepr q ++ y → p = q ∧ x = y := by
  intro p q x y h
  simp only [pairRepr, List.cons_append, List.append_assoc, List.singleton_append,
    List.cons.injEq, true_and] at h
  obtain ⟨h1, h2⟩ := pyStrRepr_det p.1.data q.1.data _ _ h
  have h3 : pyValRepr p.2 ++ ')' :: x = pyValRepr q.2 ++ ')' :: y := by simpa using h2
  obtain ⟨h4, h5⟩ := pyValRepr_det h3
  have h6 : x = y := by simpa using h5
  refine ⟨?_, h6⟩
  obtain ⟨p1, p2⟩ := p
  obtain ⟨q1, q2⟩ := q
  simp only at h1 h4
  rw [stringDataInj h1, h4]

theorem itemsAux_cons_shape (p : String × PyVal) (ps : List (String × PyVal)) :
    ∃ t, itemsReprAux (p :: ps) = '(' :: t := by
  cases ps with
  | nil => exact ⟨_, rfl⟩
  | cons q qs => exact ⟨_, rfl⟩

theorem itemsAux_det : ∀ (l₁ l₂ : List (String × PyVal)) (x y : List Char),
    itemsReprAux l₁ ++ ']' :: x = itemsReprAux l₂ ++ ']' :: y → l₁ = l₂ ∧ x = y := by
  intro l₁
  induction l₁ with
  | nil =>
    intro l₂ x y h
    cases l₂ with
    | nil => exact ⟨rfl, by simpa using h⟩
    | cons q qs =>
      exfalso
      obtain ⟨t, ht⟩ := itemsAux_cons_shape q qs
      rw [ht] at h
      simp [itemsReprAux] at h
  | cons p ps ih =>
    intro l₂ x y h
    cases l₂ with
    | nil =>
      exfalso
      obtain ⟨t, ht⟩ := itemsAux_cons_shape p ps
      rw [ht] at h
      simp [itemsReprAux] at h
    | cons q qs =>
      cases ps with
      | nil =>
        cases qs with
        | nil =>
          simp only [itemsReprAux] at h
          obtain ⟨h1, h2⟩ := pairRepr_det p q _ _ h
          exact ⟨by rw [h1], by simpa using h2⟩
        | cons q2 qs2 =>
          exfalso
          simp only [itemsReprAux, List.append_assoc, List.cons_append] at h
          obtain ⟨h1, h2⟩ := pairRepr_det p q _ _ h
          simp at h2
      | cons p2 ps2 =>
        cases qs with
        | nil =>
          exfalso
          simp only [itemsReprAux, List.append_assoc, List.cons_append] at h
          obtain ⟨h1, h2⟩ := pairRepr_det p q _ _ h
          simp at h2
        | cons q2 qs2 =>
          simp only [itemsReprAux, List.append_assoc, List.cons_append] at h
          obtain ⟨h1, h2⟩ := pairRepr_det p q _ _ h
          have h3 : itemsReprAux (p2 :: ps2) ++ ']' :: x
              = itemsReprAux (q2 :: qs2) ++ ']' :: y := by simpa using h2
          obtain ⟨h4, h5⟩ := ih (q2 :: qs2) x y h3
          exact ⟨by rw [h1, h4], h5⟩

theorem itemsRepr_inj {l₁ l₂ : List (String × PyVal)}
    (h : itemsRepr l₁ = itemsRepr l₂) : l₁ = l₂ := by
  simp only [itemsRepr, List.cons.injEq, true_and] at h
  exact (itemsAux_det l₁ l₂ [] [] h).1

theorem sortRows_sorted (l : List Row) :
    List.Sorted (fun a b => charListLeB (rowKey a) (rowKey b) = true) (sortRows l) := by
  haveI h1 : IsTotal Row (fun a b => charListLeB (rowKey a) (rowKey b) = true) :=
    ⟨fun a b => charListLeB_total (rowKey a) (rowKey b)⟩
  haveI h2 : IsTrans Row (fun a b => charListLeB (rowKey a) (rowKey b) = true) :=
    ⟨fun _ _ _ hab hbc => charListLeB_trans hab hbc⟩
  exact List.sorted_insertionSort _ l

theorem rowsEqb_of_map_eq : ∀ (l₁ l₂ : List Row),
    l₁.map sortPairs = l₂.map sortPairs → rowsEqb l₁ l₂ = true
  | [], [], _ => rfl
  | [], _ :: _, h => by simp at h
  | _ :: _, [], h => by simp at h
  | a :: as, b :: bs, h => by
    simp only [List.map_cons, List.cons.injEq] at h
    simp only [rowsEqb, Bool.and_eq_true]
    exact ⟨by simp [rowEqb, h.1], rowsEqb_of_map_eq as bs h.2⟩

/-- C8: for every list of result rows and every permutation of it, the
comparison of `run_test` (sort both sides by the canonical key
`str(sorted(x.items()))`, then exact equality of the sorted sequences,
lines 94-99) judges the list equal to its permutation. -/
theorem claim_C8_permutation_equal (l l' : List Row) (h : l.Perm l') :
    compareResults l l' = true := by
  have hp : (sortRows l).Perm (sortRows l') :=
    ((List.perm_insertionSort _ l).trans h).trans (List.perm_insertionSort _ l').symm
  have hpm : ((sortRows l).map sortPairs).Perm ((sortRows l').map sortPairs) :=
    hp.map _
  have hm1 : List.Sorted (fun p q => charListLeB (itemsRepr p) (itemsRepr q) = true)
      ((sortRows l).map sortPairs) := (List.pairwise_map).mpr (sortRows_sorted l)
  have hm2 : List.Sorted (fun p q => charListLeB (itemsRepr p) (itemsRepr q) = true)
      ((sortRows l').map sortPairs) := (List.pairwise_map).mpr (sortRows_sorted l')
  haveI : IsAntisymm (List (String × PyVal))
      (fun p q => charListLeB (itemsRepr p) (itemsRepr q) = true) :=
    ⟨fun _ _ h1 h2 => itemsRepr_inj (charListLeB_antisymm h1 h2)⟩
  have heq := List.eq_of_perm_of_sorted hpm hm1 hm2
  exact rowsEqb_of_map_eq _ _ heq

/-- Witness for C8 at a concrete two-row permutation. -/
theorem claim_C8_witness :
    (([[("a", PyVal.str "1")], [("b", PyVal.str "2")]] : List Row).Perm
      [[("b", PyVal.str "2")], [("a", PyVal.str "1")]]) ∧
    compareResults [[("a", PyVal.str "1")], [("b", PyVal.str "2")]]
      [[("b", PyVal.str "2")], [("a", PyVal.str "1")]] = true :=
  ⟨by decide, claim_C8_permutation_equal _ _ (by decide)⟩

/-! ## Claim theorems for the staged level loop -/

/-- A level whose `run_level` call reports a materialization error (a
script-application error or a missing script file, lines 86-93) returns
the all-zero record: its tests never ran. -/
theorem run_level_matError {σ : Type} (env : ExecEnv σ) (cfg : ExecConfig)
    (suite : List (String × TestCase)) (L : Nat)
    (mat : Option (List String)) (s : σ) (st : RunnerResults)
    (res : LevelResults) (s' : σ) (st' : RunnerResults)
    (h : run_level env cfg suite L mat s st = .ok (res, s', st'))
    (hm : res.materialization_error.isSome = true) :
    res.total = 0 ∧ res.passed = 0 ∧ res.failed = 0 ∧ res.details = [] := by
  unfold run_level at h
  split at h
  · exact absurd h (by simp)
  · split at h
    · simp only [Except.ok.injEq, Prod.mk.injEq] at h
      obtain ⟨h1, _⟩ := h
      rw [← h1]
      exact ⟨rfl, rfl, rfl, rfl⟩
    · split at h
      · exact absurd h (by simp)
      · simp only [Except.ok.injEq, Prod.mk.injEq] at h
        obtain ⟨h1, _⟩ := h
        rw [← h1] at hm
        simp at hm

/-- Shape of the level loop of `run_all_levels` (lines 170-178): one
entry per attempted level under its `level_k` name, in order; every
entry but the last has `failed = 0` (the loop breaks at the first level
whose record shows failures); the loop either exhausts the level list
or its last entry has `failed > 0`; and an entry carrying a
materialization error is all-zero. -/
theorem runLevelsFrom_spec {σ : Type} (env : ExecEnv σ) (cfg : ExecConfig)
    (suite : List (String × TestCase)) (mpl : List (Nat × List String)) :
    ∀ (levels : List Nat) (s : σ) (st : RunnerResults)
      (res : List (String × LevelResults)),
      runLevelsFrom env cfg suite mpl levels s st = .ok res →
      res.length ≤ levels.length ∧
      (∀ (i : Nat) (p : String × LevelResults), res[i]? = some p →
        ∃ L, levels[i]? = some L ∧ p.1 = levelName L) ∧
      (∀ (i : Nat) (p : String × LevelResults), res[i]? = some p →
        i + 1 < res.length → p.2.failed = 0) ∧
      (res.length = levels.length ∨
        ∃ q, res.getLast? = some q ∧ 0 < q.2.failed) ∧
      (∀ (i : Nat) (p : String × LevelResults), res[i]? = some p →
        p.2.materialization_error.isSome = true →
        p.2.total = 0 ∧ p.2.passed = 0 ∧ p.2.failed = 0 ∧ p.2.details = []) := by
  intro levels
  induction levels with
  | nil =>
    intro s st res h
    have hres : res = [] := by
      have h0 : (Except.ok [] : Except String (List (String × LevelResults)))
          = .ok res := h
      simp only [Except.ok.injEq] at h0
      exact h0.symm
    subst hres
    refine ⟨Nat.le_refl _, ?_, ?_, Or.inl rfl, ?_⟩ <;> intro i p hp <;> simp at hp
  | cons L rest ih =>
    intro s st res h
    rw [runLevelsFrom] at h
    cases hr : run_level env cfg suite L (some ((List.lookup L mpl).getD [])) s st with
    | error e =>
      rw [hr] at h
      have h0 : (Except.error e : Except String (List (String × LevelResults)))
          = .ok res := h
      simp at h0
    | ok trip =>
      obtain ⟨r, s', st'⟩ := trip
      rw [hr] at h
      have h2 : (if 0 < r.failed then
          (Except.ok [(levelName L, r)] : Except String (List (String × LevelResults)))
          else match runLevelsFrom env cfg suite mpl rest s' st' with
            | .error e => .error e
            | .ok tail => .ok ((levelName L, r) :: tail)) = .ok res := h
      by_cases hf : 0 < r.failed
      · rw [if_pos hf] at h2
        have hres : res = [(levelName L, r)] := by
          simp only [Except.ok.injEq] at h2
          exact h2.symm
        subst hres
        refine ⟨by simp, ?_, ?_, Or.inr ⟨(levelName L, r), rfl, hf⟩, ?_⟩
        · intro i p hp
          cases i with
          | zero =>
            simp only [List.getElem?_cons_zero, Option.some.injEq] at hp
            exact ⟨L, by simp, by rw [← hp]⟩
          | succ j => simp at hp
        · intro i p hp hlt
          simp at hlt
        · intro i p hp hm
          cases i with
          | zero =>
            simp only [List.getElem?_cons_zero, Option.some.injEq] at hp
            rw [← hp] at hm
            have hz := run_level_matError env cfg suite L _ s st r s' st' hr hm
            rw [← hp]
            exact ⟨hz.1, hz.2.1, hz.2.2.1, hz.2.2.2⟩
          | succ j => simp at hp
      · rw [if_neg hf] at h2
        cases hrec : runLevelsFrom env cfg suite mpl rest s' st' with
        | error e =>
          rw [hrec] at h2
          have h0 : (Except.error e : Except String (List (String × LevelResults)))
              = .ok res := h2
          simp at h0
        | ok tail =>
          rw [hrec] at h2
          have h3 : (Except.ok ((levelName L, r) :: tail) :
              Except String (List (String × LevelResults))) = .ok res := h2
          have hres : res = (levelName L, r) :: tail := by
            simp only [Except.ok.injEq] at h3
            exact h3.symm
          subst hres
          obtain ⟨ih1, ih2, ih3, ih4, ih5⟩ := ih s' st' tail hrec
          refine ⟨by simpa using Nat.succ_le_succ ih1, ?_, ?_, ?_, ?_⟩
          · intro i p hp
            cases i with
            | zero =>
              simp only [List.getElem?_cons_zero, Option.some.injEq] at hp
              exact ⟨L, by simp, by rw [← hp]⟩
            | succ j =>
              rw [List.getElem?_cons_succ] at hp
              obtain ⟨M, hM, hname⟩ := ih2 j p hp
              exact ⟨M, by rw [List.getElem?_cons_succ]; exact hM, hname⟩
          · intro i p hp hlt
            cases i with
            | zero =>
              simp only [List.getElem?_cons_zero, Option.some.injEq] at hp
              rw [← hp]
              show r.failed = 0
              omega
            | succ j =>
              rw [List.getElem?_cons_succ] at hp
              exact ih3 j p hp (by simpa using hlt)
          · rcases ih4 with h4 | ⟨q, hq, hqf⟩
            · exact Or.inl (by simp [h4])
            · refine Or.inr ⟨q, ?_, hqf⟩
              cases tail with
              | nil => simp at hq
              | cons t ts => rw [List.getLast?_cons_cons]; exact hq
          · intro i p hp hm
            cases i with
            | zero =>
              simp only [List.getElem?_cons_zero, Option.some.injEq] at hp
              rw [← hp] at hm ⊢
              exact run_level_matError env cfg suite L _ s st r s' st' hr hm
            | succ j =>
              rw [List.getElem?_cons_succ] at hp
              exact ih5 j p hp hm

/-- C1 (amended): in a staged run `run_all_levels(start)` that returns
normally, at most the levels `start .. 3` are attempted, in order, each
recorded under its `level_k` name; a level whose record shows
accumulated test failures is the LAST level attempted — the staged run
halts on test failures, the opposite of the claim; and a level whose
record carries a materialization error (a script-application error or a
missing script file) is recorded as all-zero and does NOT halt the
staged run: either a later level was still attempted or the erroring
level was already the final one. -/
theorem claim_C1_staged_halting {σ : Type} (env : ExecEnv σ) (cfg : ExecConfig)
    (suite : List (String × TestCase)) (start : Nat)
    (mpl : List (Nat × List String)) (s : σ) (st : RunnerResults)
    (res : List (String × LevelResults))
    (h : run_all_levels env cfg suite start mpl s st = .ok res) :
    res.length ≤ 4 - start ∧
    (∀ (i : Nat) (p : String × LevelResults), res[i]? = some p →
      p.1 = levelName (start + i)) ∧
    (∀ (i : Nat) (p : String × LevelResults), res[i]? = some p →
      0 < p.2.failed → i + 1 = res.length) ∧
    (∀ (i : Nat) (p : String × LevelResults), res[i]? = some p →
      p.2.materialization_error.isSome = true →
      p.2.total = 0 ∧ p.2.passed = 0 ∧ p.2.failed = 0 ∧ p.2.details = [] ∧
      (i + 1 < res.length ∨ res.length = 4 - start)) := by
  obtain ⟨h1, h2, h3, h4, h5⟩ := runLevelsFrom_spec env cfg suite mpl _ s st res h
  rw [List.length_range'] at h1 h4
  refine ⟨h1, ?_, ?_, ?_⟩
  · intro i p hp
    obtain ⟨M, hM, hname⟩ := h2 i p hp
    have hi : i < 4 - start := by
      by_contra hge
      rw [List.getElem?_eq_none (by rw [List.length_range']; omega)] at hM
      exact absurd hM (by simp)
    rw [List.getElem?_range' _ _ hi] at hM
    simp only [Option.some.injEq] at hM
    rw [hname, ← hM, Nat.one_mul]
  · intro i p hp hf
    have hi : i < res.length := by
      by_contra hge
      rw [List.getElem?_eq_none (by omega)] at hp
      exact absurd hp (by simp)
    by_contra hne
    have hlt : i + 1 < res.length := by omega
    have := h3 i p hp hlt
    omega
  · intro i p hp hm
    obtain ⟨z1, z2, z3, z4⟩ := h5 i p hp hm
    refine ⟨z1, z2, z3, z4, ?_⟩
    have hi : i < res.length := by
      by_contra hge
      rw [List.getElem?_eq_none (by omega)] at hp
      exact absurd hp (by simp)
    by_cases hend : i + 1 < res.length
    · exact Or.inl hend
    · right
      rcases h4 with h4 | ⟨q, hq, hqf⟩
      · exact h4
      · exfalso
        rw [List.getLast?_eq_getElem?] at hq
        have hieq : i = res.length - 1 := by omega
        rw [hieq] at hp
        rw [hp] at hq
        simp only [Option.some.injEq] at hq
        rw [← hq] at hqf
        omega

/-- Counterexample to C1 as stated: on a four-level configuration whose
level-0 test fails, the staged run records ONLY level 0 — the later
levels are never attempted after the test failure; and on an all-pass
configuration whose level-0 materialization script file is missing, the
staged run records all four levels — the missing script file does not
halt the run — with level 0 zeroed and tagged with the error. -/
theorem claim_C1_counterexample :
    (run_all_levels cexEnv cexCfg cexSuiteFail0 0 [] () initResults
      = .ok [("level_0", ⟨1, 0, 1, [("0.1", TStatus.fail)], none⟩)]) ∧
    (run_all_levels cexEnvMissing cexCfg cexSuiteAllPass 0 [(0, ["m.sparql"])]
        () initResults
      = .ok cexC1MissingRes) ∧
    cexC1MissingRes.length = 4 :=
  ⟨rfl, rfl, rfl⟩

/-- Witness for the amended C1 on the missing-script run: the level-0
entry is all-zero and the run was not cut short. -/
theorem claim_C1_witness :
    cexC1Entry0.2.total = 0 ∧ cexC1Entry0.2.passed = 0 ∧
    cexC1Entry0.2.failed = 0 ∧ cexC1Entry0.2.details = [] ∧
    (0 + 1 < cexC1MissingRes.length ∨ cexC1MissingRes.length = 4 - 0) :=
  (claim_C1_staged_halting cexEnvMissing cexCfg cexSuiteAllPass 0
    [(0, ["m.sparql"])] () initResults cexC1MissingRes rfl).2.2.2 0 cexC1Entry0
    rfl rfl

end FamOnt
